import Mathlib

/-!
Verification of the PVT (position-velocity-time) trajectory core of
`motion_pvt_sequence_generation/pvt.py`.

The Python code is shallowly embedded over an arbitrary linear ordered field
`K` (instantiated at `ℚ` for concrete evaluation; the claims speak of exact
real arithmetic, and every theorem below holds for `ℝ` as well since it is
proved for an arbitrary linear ordered field).  Python floats become elements
of `K`; fallible Python code (assertions, `ZeroDivisionError`, singular
linear solves) becomes `Option`/`Except`-valued functions.
-/

namespace PVT

/-- Failure modes of the embedded pipeline.  The Python original has no error
classes: it fails with `AssertionError` (failed `assert`), `IndexError`
(writing `A[0, 0]` into an empty matrix when there are fewer than 2 points),
`ZeroDivisionError` (float division by a zero `delta_time` while assembling a
linear system), or `numpy.linalg.LinAlgError` (a singular banded solve).
Each constructor models one of those concrete failure sites. -/
inductive Err where
  /-- Models the `IndexError`/`ValueError` raised when a solver is invoked
  with fewer than 2 points (`num_segments < 1`). -/
  | tooFewPoints
  /-- Models Python's `ZeroDivisionError` in float division. -/
  | divisionByZero
  /-- Models `LinAlgError` raised by `scipy.linalg.solve_banded` on a
  singular banded matrix (zero pivot). -/
  | singularSystem
  /-- Models the `AssertionError` from `Sequence.from_csv`'s combination
  checks ("Invalid csv structure ..."). -/
  | invalidCombination
  /-- Models a `TypeError` from arithmetic on `None` (unreachable in the
  verified paths). -/
  | pyNone
  deriving DecidableEq

variable {K : Type} [LinearOrderedField K]

instance exceptDecEq {e a : Type} [DecidableEq e] [DecidableEq a] :
    DecidableEq (Except e a)
  | .error x, .error y =>
    if h : x = y then .isTrue (by rw [h]) else .isFalse (by simp [h])
  | .error _, .ok _ => .isFalse (by simp)
  | .ok _, .error _ => .isFalse (by simp)
  | .ok x, .ok y =>
    if h : x = y then .isTrue (by rw [h]) else .isFalse (by simp [h])

/-- Python float division `x / y`, which raises `ZeroDivisionError` when
`y == 0`. -/
def pydiv (x y : K) : Except Err K :=
  if y = 0 then .error .divisionByZero else .ok (x / y)

/-- `Point`: a position-velocity-time point (`pvt.py`, class `Point`).
`position` and `velocity` are per-axis vectors, embedded as lists. -/
structure Point (K : Type) where
  position : List K
  velocity : List K
  time : K
  deriving DecidableEq

/-- `Point.dim`: the dimension of the point. -/
def Point.dim (p : Point K) : Nat := p.position.length

/-- `Point.__post_init__` asserts that position and velocity have the same
dimension; a `Point` is only constructible when they do. -/
def mkPoint (pos vel : List K) (t : K) : Option (Point K) :=
  if pos.length = vel.length then some ⟨pos, vel, t⟩ else none

/-- `Segment`: a PVT segment formed from two PVT points.  The Python class
stores the two points and the cubic coefficients computed from them; here the
coefficients are recovered by `Segment.coefficients`. -/
structure Segment (K : Type) where
  startPoint : Point K
  endPoint : Point K
  deriving DecidableEq

/-- `Segment.__init__` validation: the two points must have the same
dimension (`assert start_point.dim == end_point.dim`) and
`_calculate_coefficients` asserts `delta_time >= 0`. -/
def mkSegment (p q : Point K) : Option (Segment K) :=
  if p.dim = q.dim ∧ 0 ≤ q.time - p.time then some ⟨p, q⟩ else none

/-- `calculate_coefficients_1d` (inside `Segment._calculate_coefficients`):
the cubic coefficients in a single dimension. -/
def calculate_coefficients_1d (delta_time pos_start pos_end vel_start vel_end : K) :
    K × K × K × K :=
  let delta_pos := pos_end - pos_start
  let c0 := pos_start
  let c1 := vel_start
  if 0 < delta_time then
    (c0, c1,
      3 * delta_pos / delta_time ^ 2 - (2 * vel_start + vel_end) / delta_time,
      -2 * delta_pos / delta_time ^ 3 + (vel_start + vel_end) / delta_time ^ 2)
  else
    (c0, c1, 0, 0)

/-- `Segment._calculate_coefficients`: the per-axis cubic coefficients,
computed axis by axis (the Python loop `for i in range(self.dim)`). -/
def Segment.coefficients (s : Segment K) : List (K × K × K × K) :=
  let delta_time := s.endPoint.time - s.startPoint.time
  List.zipWith (fun pp vv => calculate_coefficients_1d delta_time pp.1 pp.2 vv.1 vv.2)
    (s.startPoint.position.zip s.endPoint.position)
    (s.startPoint.velocity.zip s.endPoint.velocity)

/-- The `1e-14` tolerance used by `Segment._validate_time` and
`Sequence._validate_time` (taken at its decimal value in the exact
embedding). -/
def tol : K := 1 / 10 ^ 14

/-- `Segment.position`: evaluate the per-axis cubic at a time, after
`_validate_time` (which asserts `time_min <= time <= time_max + 1e-14`). -/
def Segment.position (s : Segment K) (time : K) : Option (List K) :=
  if s.startPoint.time ≤ time ∧ time ≤ s.endPoint.time + tol then
    some (s.coefficients.map (fun c =>
      c.1 + c.2.1 * (time - s.startPoint.time) + c.2.2.1 * (time - s.startPoint.time) ^ 2
        + c.2.2.2 * (time - s.startPoint.time) ^ 3))
  else none

/-- `Segment.velocity`: evaluate the derivative of the per-axis cubic. -/
def Segment.velocity (s : Segment K) (time : K) : Option (List K) :=
  if s.startPoint.time ≤ time ∧ time ≤ s.endPoint.time + tol then
    some (s.coefficients.map (fun c =>
      c.2.1 + 2 * c.2.2.1 * (time - s.startPoint.time)
        + 3 * c.2.2.2 * (time - s.startPoint.time) ^ 2))
  else none

/-- `Segment.acceleration`: evaluate the second derivative of the per-axis
cubic. -/
def Segment.acceleration (s : Segment K) (time : K) : Option (List K) :=
  if s.startPoint.time ≤ time ∧ time ≤ s.endPoint.time + tol then
    some (s.coefficients.map (fun c =>
      2 * c.2.2.1 + 6 * c.2.2.2 * (time - s.startPoint.time)))
  else none

lemma tol_pos : (0 : K) < tol := by
  unfold tol
  positivity

lemma coefficients_length (s : Segment K)
    (hp : s.startPoint.position.length = s.startPoint.velocity.length)
    (hq : s.endPoint.position.length = s.endPoint.velocity.length)
    (hd : s.startPoint.dim = s.endPoint.dim) :
    s.coefficients.length = s.startPoint.dim := by
  simp [Segment.coefficients, Point.dim] at *
  omega

/-- Evaluating the cubic of `calculate_coefficients_1d` at `delta_time`
returns the end position (for `delta_time ≠ 0`). -/
lemma coeff_eval_end_pos (dt ps pe vs ve : K) (h : 0 < dt) :
    (calculate_coefficients_1d dt ps pe vs ve).1
      + (calculate_coefficients_1d dt ps pe vs ve).2.1 * dt
      + (calculate_coefficients_1d dt ps pe vs ve).2.2.1 * dt ^ 2
      + (calculate_coefficients_1d dt ps pe vs ve).2.2.2 * dt ^ 3 = pe := by
  simp only [calculate_coefficients_1d, if_pos h]
  field_simp
  ring

/-- Evaluating the derivative of the cubic of `calculate_coefficients_1d` at
`delta_time` returns the end velocity (for `delta_time ≠ 0`). -/
lemma coeff_eval_end_vel (dt ps pe vs ve : K) (h : 0 < dt) :
    (calculate_coefficients_1d dt ps pe vs ve).2.1
      + 2 * (calculate_coefficients_1d dt ps pe vs ve).2.2.1 * dt
      + 3 * (calculate_coefficients_1d dt ps pe vs ve).2.2.2 * dt ^ 2 = ve := by
  simp only [calculate_coefficients_1d, if_pos h]
  field_simp
  ring

/-- A point is well formed when its position and velocity vectors have the
same dimension (enforced by `Point.__post_init__`). -/
def Point.wf (p : Point K) : Prop := p.position.length = p.velocity.length

lemma position_at_start (s : Segment K)
    (hp : s.startPoint.wf) (hq : s.endPoint.wf) (hd : s.startPoint.dim = s.endPoint.dim)
    (ht : s.startPoint.time ≤ s.endPoint.time) :
    s.position s.startPoint.time = some s.startPoint.position := by
  have hg : s.startPoint.time ≤ s.startPoint.time ∧
      s.startPoint.time ≤ s.endPoint.time + tol :=
    ⟨le_refl _, le_trans ht (le_add_of_nonneg_right tol_pos.le)⟩
  simp only [Segment.position, if_pos hg]
  congr 1
  apply List.ext_getElem
  · simp [Segment.coefficients, Point.wf, Point.dim] at *
    omega
  · intro i h1 h2
    simp only [Segment.coefficients, List.getElem_map, List.getElem_zipWith, List.getElem_zip]
    simp [calculate_coefficients_1d]
    split <;> ring

lemma velocity_at_start (s : Segment K)
    (hp : s.startPoint.wf) (hq : s.endPoint.wf) (hd : s.startPoint.dim = s.endPoint.dim)
    (ht : s.startPoint.time ≤ s.endPoint.time) :
    s.velocity s.startPoint.time = some s.startPoint.velocity := by
  have hg : s.startPoint.time ≤ s.startPoint.time ∧
      s.startPoint.time ≤ s.endPoint.time + tol :=
    ⟨le_refl _, le_trans ht (le_add_of_nonneg_right tol_pos.le)⟩
  simp only [Segment.velocity, if_pos hg]
  congr 1
  apply List.ext_getElem
  · simp [Segment.coefficients, Point.wf, Point.dim] at *
    omega
  · intro i h1 h2
    simp only [Segment.coefficients, List.getElem_map, List.getElem_zipWith, List.getElem_zip]
    simp [calculate_coefficients_1d]
    split <;> ring

lemma position_at_end (s : Segment K)
    (hp : s.startPoint.wf) (hq : s.endPoint.wf) (hd : s.startPoint.dim = s.endPoint.dim)
    (ht : s.startPoint.time < s.endPoint.time) :
    s.position s.endPoint.time = some s.endPoint.position := by
  have hg : s.startPoint.time ≤ s.endPoint.time ∧
      s.endPoint.time ≤ s.endPoint.time + tol :=
    ⟨ht.le, le_add_of_nonneg_right tol_pos.le⟩
  simp only [Segment.position, if_pos hg]
  congr 1
  apply List.ext_getElem
  · simp [Segment.coefficients, Point.wf, Point.dim] at *
    omega
  · intro i h1 h2
    simp only [Segment.coefficients, List.getElem_map, List.getElem_zipWith, List.getElem_zip]
    have hb1 : i < s.startPoint.position.length := by
      simp [Segment.coefficients, Point.wf, Point.dim] at *; omega
    have hb2 : i < s.endPoint.position.length := by
      simp [Segment.coefficients, Point.wf, Point.dim] at *; omega
    have hb3 : i < s.startPoint.velocity.length := by
      simp [Segment.coefficients, Point.wf, Point.dim] at *; omega
    have hb4 : i < s.endPoint.velocity.length := by
      simp [Segment.coefficients, Point.wf, Point.dim] at *; omega
    have := coeff_eval_end_pos (s.endPoint.time - s.startPoint.time)
      s.startPoint.position[i] s.endPoint.position[i]
      s.startPoint.velocity[i] s.endPoint.velocity[i]
      (by linarith)
    convert this using 2

lemma velocity_at_end (s : Segment K)
    (hp : s.startPoint.wf) (hq : s.endPoint.wf) (hd : s.startPoint.dim = s.endPoint.dim)
    (ht : s.startPoint.time < s.endPoint.time) :
    s.velocity s.endPoint.time = some s.endPoint.velocity := by
  have hg : s.startPoint.time ≤ s.endPoint.time ∧
      s.endPoint.time ≤ s.endPoint.time + tol :=
    ⟨ht.le, le_add_of_nonneg_right tol_pos.le⟩
  simp only [Segment.velocity, if_pos hg]
  congr 1
  apply List.ext_getElem
  · simp [Segment.coefficients, Point.wf, Point.dim] at *
    omega
  · intro i h1 h2
    simp only [Segment.coefficients, List.getElem_map, List.getElem_zipWith, List.getElem_zip]
    have hb1 : i < s.startPoint.position.length := by
      simp [Segment.coefficients, Point.wf, Point.dim] at *; omega
    have hb2 : i < s.endPoint.position.length := by
      simp [Segment.coefficients, Point.wf, Point.dim] at *; omega
    have hb3 : i < s.startPoint.velocity.length := by
      simp [Segment.coefficients, Point.wf, Point.dim] at *; omega
    have hb4 : i < s.endPoint.velocity.length := by
      simp [Segment.coefficients, Point.wf, Point.dim] at *; omega
    have := coeff_eval_end_vel (s.endPoint.time - s.startPoint.time)
      s.startPoint.position[i] s.endPoint.position[i]
      s.startPoint.velocity[i] s.endPoint.velocity[i]
      (by linarith)
    convert this using 2

/-- C2: for every pair of well-formed `Point`s of equal dimension with
`end.time > start.time`, the `Segment` built from them is a cubic Hermite
interpolant: per axis, `position(start.time) = start.position`,
`velocity(start.time) = start.velocity`, `position(end.time) = end.position`
and `velocity(end.time) = end.velocity`, in exact arithmetic. -/
theorem hermite_interpolant_matches_endpoints
    (p q : Point K) (hp : p.wf) (hq : q.wf) (hd : p.dim = q.dim)
    (ht : p.time < q.time) :
    ∃ s : Segment K, mkSegment p q = some s ∧
      s.position p.time = some p.position ∧
      s.velocity p.time = some p.velocity ∧
      s.position q.time = some q.position ∧
      s.velocity q.time = some q.velocity := by
  refine ⟨⟨p, q⟩, ?_, ?_, ?_, ?_, ?_⟩
  · simp [mkSegment, hd, le_of_lt, sub_nonneg.mpr ht.le]
  · exact position_at_start ⟨p, q⟩ hp hq hd ht.le
  · exact velocity_at_start ⟨p, q⟩ hp hq hd ht.le
  · exact position_at_end ⟨p, q⟩ hp hq hd ht
  · exact velocity_at_end ⟨p, q⟩ hp hq hd ht

/-- C2 witness: a concrete 1-D instance. -/
theorem hermite_interpolant_matches_endpoints_witness :
    ∃ s : Segment ℚ, mkSegment ⟨[0], [1], 0⟩ ⟨[3], [2], 2⟩ = some s ∧
      s.position 0 = some [0] ∧ s.velocity 0 = some [1] ∧
      s.position 2 = some [3] ∧ s.velocity 2 = some [2] :=
  hermite_interpolant_matches_endpoints ⟨[0], [1], 0⟩ ⟨[3], [2], 2⟩
    rfl rfl rfl (by norm_num)

/-- C6: for every `Segment` whose two (well-formed, equal-dimension) points
share the same time, the coefficients `c2` and `c3` are zero on every axis,
and position and velocity evaluated at the shared time equal the start
point's position and velocity. -/
theorem degenerate_segment_frozen
    (p q : Point K) (hp : p.wf) (hq : q.wf) (hd : p.dim = q.dim)
    (ht : p.time = q.time) :
    ∃ s : Segment K, mkSegment p q = some s ∧
      (∀ c ∈ s.coefficients, c.2.2.1 = 0 ∧ c.2.2.2 = 0) ∧
      s.position p.time = some p.position ∧
      s.velocity p.time = some p.velocity := by
  refine ⟨⟨p, q⟩, ?_, ?_, ?_, ?_⟩
  · simp [mkSegment, hd, ht]
  · intro c hc
    rw [List.mem_iff_getElem] at hc
    obtain ⟨i, hi, rfl⟩ := hc
    have hdt : ¬ (0 : K) < q.time - p.time := by simp [ht]
    simp only [Segment.coefficients, List.getElem_zipWith]
    simp [calculate_coefficients_1d, hdt]
  · exact position_at_start ⟨p, q⟩ hp hq hd ht.le
  · exact velocity_at_start ⟨p, q⟩ hp hq hd ht.le

/-- C6 witness: a concrete degenerate segment (the end velocity differs from
the start velocity, and is not reproduced). -/
theorem degenerate_segment_frozen_witness :
    ∃ s : Segment ℚ, mkSegment ⟨[0], [1], 5⟩ ⟨[2], [3], 5⟩ = some s ∧
      (∀ c ∈ s.coefficients, c.2.2.1 = 0 ∧ c.2.2.2 = 0) ∧
      s.position 5 = some [0] ∧ s.velocity 5 = some [1] :=
  degenerate_segment_frozen ⟨[0], [1], 5⟩ ⟨[2], [3], 5⟩
    rfl rfl rfl rfl

/-- C7: for every `Segment`, the evaluators `position`, `velocity` and
`acceleration` fail exactly when `t < start.time` or `t > end.time + 1e-14`,
and return a value for every `t` with `start.time ≤ t ≤ end.time + 1e-14`. -/
theorem segment_evaluators_range (s : Segment K) (t : K) :
    ((s.position t = none ∧ s.velocity t = none ∧ s.acceleration t = none) ↔
      (t < s.startPoint.time ∨ s.endPoint.time + tol < t)) ∧
    ((∃ v, s.position t = some v) ↔
      (s.startPoint.time ≤ t ∧ t ≤ s.endPoint.time + tol)) ∧
    ((∃ v, s.velocity t = some v) ↔
      (s.startPoint.time ≤ t ∧ t ≤ s.endPoint.time + tol)) ∧
    ((∃ v, s.acceleration t = some v) ↔
      (s.startPoint.time ≤ t ∧ t ≤ s.endPoint.time + tol)) := by
  unfold Segment.position Segment.velocity Segment.acceleration
  by_cases h : s.startPoint.time ≤ t ∧ t ≤ s.endPoint.time + tol
  · have hn : ¬(t < s.startPoint.time ∨ s.endPoint.time + tol < t) := by
      push_neg
      exact h
    simp [if_pos h, hn, h.1, h.2]
  · have hn : t < s.startPoint.time ∨ s.endPoint.time + tol < t := by
      rcases not_and_or.mp h with h1 | h2
      · exact Or.inl (not_le.mp h1)
      · exact Or.inr (not_le.mp h2)
    simp [if_neg h, hn, h]

/-- `Sequence`: an ordered list of points plus the list of segments between
consecutive points. -/
structure Sequence (K : Type) where
  points : List (Point K)
  segments : List (Segment K)
  deriving DecidableEq

/-- The freshly initialized `Sequence()` (no points, no segments). -/
def emptySequence : Sequence K := ⟨[], []⟩

/-- `Sequence.append_point`: the segment from the current last point to the
new point is constructed (and validated) first; only if that succeeds are
the segment and the point appended.  A validation failure therefore raises
before either list is mutated, leaving the sequence unchanged — which the
embedding renders by returning `none` and no new sequence value. -/
def appendPoint (s : Sequence K) (p : Point K) : Option (Sequence K) :=
  match s.points.getLast? with
  | none => some ⟨s.points ++ [p], s.segments⟩
  | some q =>
    match mkSegment q p with
    | none => none
    | some seg => some ⟨s.points ++ [p], s.segments ++ [seg]⟩

/-- `Sequence.__init__(points)` (and every generation pipeline): fold
`append_point` over the list of points, starting from the empty sequence. -/
def buildSequence (pts : List (Point K)) : Option (Sequence K) :=
  pts.foldlM appendPoint emptySequence

/-- The segments a successfully built sequence holds: one `Segment` per pair
of consecutive points. -/
def consecutiveSegments (pts : List (Point K)) : List (Segment K) :=
  List.zipWith (fun a b => ⟨a, b⟩) pts pts.tail

/-- Compatibility of consecutive points: equal dimension and non-decreasing
time (exactly the conditions validated by `Segment.__init__`). -/
def Compat (a b : Point K) : Prop := a.dim = b.dim ∧ a.time ≤ b.time

lemma mkSegment_of_compat {a b : Point K} (h : Compat a b) :
    mkSegment a b = some ⟨a, b⟩ := by
  simp [mkSegment, h.1, sub_nonneg.mpr h.2]

lemma buildSequence_from (pts : List (Point K)) :
    ∀ (s₀ : Sequence K) (q : Point K), s₀.points.getLast? = some q →
      List.Chain' Compat (q :: pts) →
      pts.foldlM appendPoint s₀ =
        some ⟨s₀.points ++ pts, s₀.segments ++ List.zipWith (fun a b => ⟨a, b⟩) (q :: pts) pts⟩ := by
  induction pts with
  | nil => intro s₀ q hl hc; simp
  | cons p rest ih =>
    intro s₀ q hl hc
    have hqp : Compat q p := (List.chain'_cons.mp hc).1
    have happ : appendPoint s₀ p = some ⟨s₀.points ++ [p], s₀.segments ++ [⟨q, p⟩]⟩ := by
      simp [appendPoint, hl, mkSegment_of_compat hqp]
    rw [List.foldlM_cons, happ]
    simp only [Option.bind_eq_bind, Option.some_bind]
    exact (ih ⟨s₀.points ++ [p], s₀.segments ++ [(⟨q, p⟩ : Segment K)]⟩ p
      (by simp) (List.chain'_cons.mp hc).2).trans (by simp)

lemma buildSequence_eq (pts : List (Point K)) (hc : List.Chain' Compat pts) :
    buildSequence pts = some ⟨pts, consecutiveSegments pts⟩ := by
  cases pts with
  | nil => rfl
  | cons p rest =>
    unfold buildSequence
    rw [List.foldlM_cons]
    have happ : appendPoint (emptySequence (K := K)) p = some ⟨[p], []⟩ := by
      simp [appendPoint, emptySequence]
    rw [happ]
    simp only [Option.bind_eq_bind, Option.some_bind]
    rw [buildSequence_from rest ⟨[p], []⟩ p (by simp) hc]
    simp [consecutiveSegments]

lemma appendPoint_some_cases {s : Sequence K} {p : Point K} {s' : Sequence K}
    (h : appendPoint s p = some s') :
    (s.points.getLast? = none ∧ s' = ⟨s.points ++ [p], s.segments⟩) ∨
    (∃ q, s.points.getLast? = some q ∧ q.dim = p.dim ∧ q.time ≤ p.time ∧
      s' = ⟨s.points ++ [p], s.segments ++ [⟨q, p⟩]⟩) := by
  unfold appendPoint at h
  cases hl : s.points.getLast? with
  | none =>
    simp only [hl] at h
    exact Or.inl ⟨rfl, (Option.some.injEq _ _ ▸ h).symm⟩
  | some q =>
    simp only [hl] at h
    cases hseg : mkSegment q p with
    | none =>
      simp only [hseg] at h
      exact Option.noConfusion h
    | some seg =>
      simp only [hseg, Option.some.injEq] at h
      rw [mkSegment] at hseg
      by_cases hcond : q.dim = p.dim ∧ 0 ≤ p.time - q.time
      · rw [if_pos hcond] at hseg
        simp only [Option.some.injEq] at hseg
        refine Or.inr ⟨q, rfl, hcond.1, by linarith [sub_nonneg.mp hcond.2], ?_⟩
        rw [← h, hseg]
      · rw [if_neg hcond] at hseg
        exact absurd hseg (by simp)

/-- C5 (counterexample to the claim as stated): the empty `Sequence` is
successfully constructed (this is exactly Python's `Sequence()`), yet it has
`0` segments and `0` points, and `0 ≠ 0 - 1`. -/
theorem sequence_invariant_counterexample :
    buildSequence ([] : List (Point ℚ)) = some ⟨[], []⟩ ∧
    ¬(((emptySequence : Sequence ℚ).segments.length : ℤ) =
        ((emptySequence : Sequence ℚ).points.length : ℤ) - 1) := by
  constructor
  · rfl
  · decide

/-- C5 (amended): appending a `Point` whose time is strictly less than the
current last point's time fails (returning no updated sequence: the segment
is validated before either internal list is touched); and every successfully
constructed *nonempty* `Sequence` has non-decreasing point times and
`segments.length + 1 = points.length`. -/
theorem sequence_append_validation_and_invariant :
    (∀ (s : Sequence K) (q p : Point K), s.points.getLast? = some q →
      p.time < q.time → appendPoint s p = none) ∧
    (∀ (pts : List (Point K)) (s : Sequence K), buildSequence pts = some s →
      List.Chain' (· ≤ ·) (s.points.map Point.time) ∧
      (s.points ≠ [] → s.segments.length + 1 = s.points.length)) := by
  constructor
  · intro s q p hl htime
    have : mkSegment q p = none := by
      rw [mkSegment, if_neg]
      rintro ⟨-, h⟩
      linarith [sub_nonneg.mp h]
    simp [appendPoint, hl, this]
  · -- invariant preservation along the fold
    have key : ∀ (pts : List (Point K)) (s₀ s : Sequence K),
        pts.foldlM appendPoint s₀ = some s →
        (List.Chain' (· ≤ ·) (s₀.points.map Point.time) ∧
          (s₀.points = [] → s₀.segments = []) ∧
          (s₀.points ≠ [] → s₀.segments.length + 1 = s₀.points.length)) →
        (List.Chain' (· ≤ ·) (s.points.map Point.time) ∧
          (s.points = [] → s.segments = []) ∧
          (s.points ≠ [] → s.segments.length + 1 = s.points.length)) := by
      intro pts
      induction pts with
      | nil => intro s₀ s h hInv; simp at h; subst h; exact hInv
      | cons p rest ih =>
        intro s₀ s h hInv
        rw [List.foldlM_cons] at h
        simp only [Option.bind_eq_bind] at h
        cases happ : appendPoint s₀ p with
        | none => rw [happ] at h; simp at h
        | some s₁ =>
          rw [happ] at h
          simp only [Option.some_bind] at h
          refine ih s₁ s h ?_
          rcases appendPoint_some_cases happ with ⟨hl, rfl⟩ | ⟨q, hl, hdim, hqt, rfl⟩
          · have hnil : s₀.points = [] := by
              cases hp : s₀.points with
              | nil => rfl
              | cons a as => rw [hp] at hl; simp at hl
            refine ⟨by simp [hnil], by simp [hnil], by simp [hnil, hInv.2.1 hnil]⟩
          · have hne : s₀.points ≠ [] := by
              intro hnil; rw [hnil] at hl; simp at hl
            refine ⟨?_, by simp, ?_⟩
            · simp only [List.map_append]
              rw [List.chain'_append]
              refine ⟨hInv.1, by simp, ?_⟩
              intro x hx y hy
              simp at hy
              subst hy
              have hlast : (s₀.points.map Point.time).getLast? = some q.time := by
                rw [List.getLast?_map, hl]
                rfl
              rw [hlast] at hx
              simp at hx
              subst hx
              exact hqt
            · intro _
              simp [hInv.2.2 hne]
    intro pts s h
    have hres := key pts emptySequence s h (by simp [emptySequence])
    exact ⟨hres.1, hres.2.2⟩

/-- C5 witness: the rejection branch and the invariant at concrete inputs. -/
theorem sequence_append_validation_and_invariant_witness :
    appendPoint (⟨[⟨[0], [0], 5⟩], []⟩ : Sequence ℚ) ⟨[1], [1], 3⟩ = none ∧
    (List.Chain' (· ≤ ·)
        ((⟨[⟨[0], [0], 0⟩], []⟩ : Sequence ℚ).points.map Point.time) ∧
      ((⟨[⟨[0], [0], 0⟩], []⟩ : Sequence ℚ).points ≠ [] →
        (⟨[⟨[0], [0], 0⟩], []⟩ : Sequence ℚ).segments.length + 1 =
          (⟨[⟨[0], [0], 0⟩], []⟩ : Sequence ℚ).points.length)) :=
  ⟨(sequence_append_validation_and_invariant (K := ℚ)).1 _ _ _ rfl (by norm_num),
   (sequence_append_validation_and_invariant (K := ℚ)).2 [⟨[0], [0], 0⟩] _ (by decide)⟩

/-- Model of `CSVData`: whether a time column was present in the header, the
parsed time values, the per-axis position values, and the per-axis velocity
values (empty cells become `none`, as in `_read_row`).  Position and time
cells are parsed with `float(...)` and can never be `None`. -/
structure CSVData (K : Type) where
  hasTimeColumn : Bool
  time_sequence : List K
  position_sequences : List (List K)
  velocity_sequences : List (List (Option K))
  deriving DecidableEq

/-- `CSVData.contains_time_data`: a time column exists and some value was
read from it (`any(t is not None ...)` — time cells are parsed floats, so
this is just nonemptiness). -/
def CSVData.contains_time_data (d : CSVData K) : Bool :=
  d.hasTimeColumn && !d.time_sequence.isEmpty

/-- `CSVData.contains_position_data`: some position column has a value. -/
def CSVData.contains_position_data (d : CSVData K) : Bool :=
  d.position_sequences.any (fun s => !s.isEmpty)

/-- `CSVData.contains_velocity_data`: some velocity cell is non-empty. -/
def CSVData.contains_velocity_data (d : CSVData K) : Bool :=
  d.velocity_sequences.any (fun s => s.any (fun v => v.isSome))

/-- `CSVData.contains_complete_velocity_data`: velocity columns exist and no
velocity cell is empty. -/
def CSVData.contains_complete_velocity_data (d : CSVData K) : Bool :=
  !d.velocity_sequences.isEmpty && d.velocity_sequences.all (fun s => s.all (fun v => v.isSome))

/-- The `GenerationType` enum local to `Sequence.from_csv`. -/
inductive GenerationType where
  | noGeneration
  | timeAndVelocity
  | positionOnly
  | velocityOnly
  deriving DecidableEq

/-- The classification logic of `Sequence.from_csv` ("Read the data and do
some sanity checks"): decides which generation routine to run, failing (via
`assert`) on unsupported combinations.  `from_csv` then dispatches on the
result, so an `.error` here means the call raises and no `Sequence` is ever
constructed. -/
def fromCsvClassify (d : CSVData K) : Except Err GenerationType :=
  let step1 : Except Err GenerationType :=
    if !d.contains_time_data then
      if d.contains_velocity_data then .error .invalidCombination
      else .ok .timeAndVelocity
    else if !d.contains_velocity_data then
      if !d.contains_position_data then .error .invalidCombination
      else .ok .velocityOnly
    else if !d.contains_complete_velocity_data then .ok .velocityOnly
    else .ok .noGeneration
  match step1 with
  | .error e => .error e
  | .ok g =>
    if !d.contains_position_data then
      if d.contains_time_data && d.contains_complete_velocity_data then .ok .positionOnly
      else .error .invalidCombination
    else .ok g

omit [LinearOrderedField K] in
/-- C8: whenever the time data is absent but velocity data is present (the
position data may be absent or present), `from_csv`'s classification fails
with the invalid-combination assertion, so no `Sequence` is returned. -/
theorem missing_time_with_velocity_fails (d : CSVData K)
    (htime : d.contains_time_data = false)
    (hvel : d.contains_velocity_data = true) :
    fromCsvClassify d = .error .invalidCombination := by
  simp [fromCsvClassify, htime, hvel]

/-- C8 witness: a concrete data set with velocities but no time column. -/
theorem missing_time_with_velocity_fails_witness :
    fromCsvClassify (⟨false, [], [[0]], [[some 1]]⟩ : CSVData ℚ) =
      .error .invalidCombination :=
  missing_time_with_velocity_fails _ (by decide) (by decide)

/-!
### The banded linear solve

`scipy.linalg.solve_banded((1, 1), ab, b)` solves a tridiagonal system; in
exact arithmetic this is the Thomas algorithm below.  A row is stored as
`(sub, diag, sup, rhs)`: its entry on the subdiagonal, the diagonal, the
superdiagonal, and the right-hand side (matching scipy's `ab` banded
storage; the `sub` of the first row and the `sup` of the last row are the
`0` padding entries of `ab`).  `solve_banded` raises `LinAlgError` on a
singular matrix — here, a vanishing pivot.  The same routine covers the
`(1, 0)` band of `generate_positions_continuous_acceleration`, whose `sup`
entries are all zero (forward substitution).
-/

/-- One sweep of the Thomas algorithm.  `cp`/`dp` are the eliminated
superdiagonal and right-hand side of the previous row (`0, 0` at the top). -/
def solveBanded (cp dp : K) : List (K × K × K × K) → Except Err (List K)
  | [] => .ok []
  | (a, b, c, d) :: rest =>
    let m := b - a * cp
    if m = 0 then .error .singularSystem
    else
      match solveBanded (c / m) ((d - a * dp) / m) rest with
      | .error e => .error e
      | .ok [] => .ok [(d - a * dp) / m]
      | .ok (x :: xs) => .ok (((d - a * dp) / m - (c / m) * x) :: x :: xs)

/-- The tridiagonal system as a predicate: each row's equation
`sub * x_prev + diag * x + sup * x_next = rhs` holds down the list. -/
def triSat (xprev : K) : List (K × K × K × K) → List K → Prop
  | [], [] => True
  | (a, b, c, d) :: rows, x :: xs =>
      a * xprev + b * x + c * xs.headD 0 = d ∧ triSat x rows xs
  | _, _ => False

lemma headD_eq_getD_zero {α : Type} (l : List α) (d : α) : l.headD d = l.getD 0 d := by
  cases l <;> simp

lemma solveBanded_length :
    ∀ (rows : List (K × K × K × K)) (cp dp : K) (xs : List K),
      solveBanded cp dp rows = .ok xs → xs.length = rows.length := by
  intro rows
  induction rows with
  | nil => intro cp dp xs h; simp [solveBanded] at h; simp [h]
  | cons r rest ih =>
    intro cp dp xs h
    obtain ⟨a, b, c, d⟩ := r
    rw [solveBanded] at h
    by_cases hm : b - a * cp = 0
    · rw [if_pos hm] at h; exact absurd h (by simp)
    · rw [if_neg hm] at h
      cases hrec : solveBanded (c / (b - a * cp)) ((d - a * dp) / (b - a * cp)) rest with
      | error e => rw [hrec] at h; exact absurd h (by simp)
      | ok ys =>
        rw [hrec] at h
        have hlen := ih _ _ _ hrec
        cases ys with
        | nil =>
          simp only [Except.ok.injEq] at h
          simp [← h, ← hlen]
        | cons y ys' =>
          simp only [Except.ok.injEq] at h
          simp only [← h, List.length_cons]
          simp at hlen
          simp [hlen]

/-- The Thomas algorithm solves the system: whenever it succeeds, every row
equation holds (given the back-substitution link to the previous row). -/
lemma solveBanded_sat :
    ∀ (rows : List (K × K × K × K)) (cp dp : K) (xs : List K),
      solveBanded cp dp rows = .ok xs →
      ∀ xprev, xprev + cp * xs.headD 0 = dp → triSat xprev rows xs := by
  intro rows
  induction rows with
  | nil =>
    intro cp dp xs h xprev hlink
    simp [solveBanded] at h
    simp [h, triSat]
  | cons r rest ih =>
    intro cp dp xs h xprev hlink
    obtain ⟨a, b, c, d⟩ := r
    rw [solveBanded] at h
    by_cases hm : b - a * cp = 0
    · rw [if_pos hm] at h; exact absurd h (by simp)
    · rw [if_neg hm] at h
      cases hrec : solveBanded (c / (b - a * cp)) ((d - a * dp) / (b - a * cp)) rest with
      | error e => rw [hrec] at h; exact absurd h (by simp)
      | ok ys =>
        rw [hrec] at h
        have hlen := solveBanded_length rest _ _ _ hrec
        cases ys with
        | nil =>
          have hrest : rest = [] := by
            cases rest with
            | nil => rfl
            | cons s ss => simp at hlen
          subst hrest
          simp only [Except.ok.injEq] at h
          subst h
          rw [triSat]
          simp only [List.headD_cons] at hlink
          constructor
          · have hx : xprev = dp - cp * ((d - a * dp) / (b - a * cp)) := by linarith
            rw [hx]
            simp only [List.headD_nil]
            field_simp
            ring
          · simp [triSat]
        | cons y ys' =>
          simp only [Except.ok.injEq] at h
          subst h
          rw [triSat]
          simp only [List.headD_cons] at hlink ⊢
          constructor
          · have hx : xprev =
                dp - cp * ((d - a * dp) / (b - a * cp) - c / (b - a * cp) * y) := by
              linarith
            rw [hx]
            field_simp
            ring
          · exact ih _ _ _ hrec ((d - a * dp) / (b - a * cp) - c / (b - a * cp) * y)
              (by simp only [List.headD_cons]; ring)

/-- `triSat` in indexed form: row `k` relates `x_{k-1}`, `x_k`, `x_{k+1}`
(where `x_{-1}` is `xprev` and out-of-range entries default to `0`). -/
lemma triSat_index :
    ∀ (rows : List (K × K × K × K)) (xs : List K) (xprev : K),
      triSat xprev rows xs →
      xs.length = rows.length ∧
      ∀ k, k < rows.length →
        (rows.getD k (0, 0, 0, 0)).1 * (if k = 0 then xprev else xs.getD (k - 1) 0)
          + (rows.getD k (0, 0, 0, 0)).2.1 * xs.getD k 0
          + (rows.getD k (0, 0, 0, 0)).2.2.1 * xs.getD (k + 1) 0
          = (rows.getD k (0, 0, 0, 0)).2.2.2 := by
  intro rows
  induction rows with
  | nil =>
    intro xs xprev h
    cases xs with
    | nil => exact ⟨rfl, by intro k hk; simp at hk⟩
    | cons x xs' => exact absurd h (by simp [triSat])
  | cons r rest ih =>
    intro xs xprev h
    obtain ⟨a, b, c, d⟩ := r
    cases xs with
    | nil => exact absurd h (by simp [triSat])
    | cons x xs' =>
      rw [triSat] at h
      obtain ⟨heq, hrest⟩ := h
      obtain ⟨hlen, hidx⟩ := ih xs' x hrest
      refine ⟨by simp [hlen], ?_⟩
      intro k hk
      cases k with
      | zero =>
        simpa [List.head?_eq_getElem?] using heq
      | succ k' =>
        have hk' : k' < rest.length := by simpa using hk
        have := hidx k' hk'
        cases k' with
        | zero =>
          simpa using this
        | succ k'' =>
          simpa using this

/-- The consecutive differences `xs[i+1] - xs[i]` (`delta_time`,
`delta_pos`, `delta_vel` in the Python loops). -/
def deltas (xs : List K) : List K := List.zipWith (fun x2 x1 => x2 - x1) xs.tail xs

/-- Rows assembled by `generate_velocities_continuous_acceleration` for the
segments of one gap, from the per-segment `(delta_time, delta_pos)` pairs.
Middle segments contribute a position row and the two continuity rows;
the final segment contributes the position row and the end-velocity row.
`pydiv` models the Python float divisions by `delta_time` (and by
`delta_time ** 2`), which raise `ZeroDivisionError` when `delta_time == 0`. -/
def velocityRows (ve : K) : List (K × K) → Except Err (List (K × K × K × K))
  | [] => .ok []
  | [(dt, dp)] => do
    let q ← pydiv dp dt
    .ok [(dt, dt ^ 2, dt ^ 3, dp), (dt, 2 * dt ^ 2, 0, ve - q)]
  | (dt, dp) :: rest => do
    let q1 ← pydiv dp dt
    let q2 ← pydiv 1 dt
    let q3 ← pydiv dp (dt ^ 2)
    let tail ← velocityRows ve rest
    .ok ((dt, dt ^ 2, dt ^ 3, dp) :: (dt, 2 * dt ^ 2, -1, -q1) :: (dt, q2, -1, q3) :: tail)

/-- `generate_velocities_continuous_acceleration`: assemble the banded
system, solve it, and read the velocities out of the solution
(`vel_sequence = [vel_start] + [coefficients[3 * i] for i in 1..n-1] +
[vel_end]`).  Fewer than 2 time points make `num_segments < 1`, on which the
Python code fails while writing `A[0, 0]`. -/
def generate_velocities_continuous_acceleration
    (position_sequence time_sequence : List K) (vel_start vel_end : K) :
    Except Err (List K) :=
  if time_sequence.length < 2 then .error .tooFewPoints
  else
    match velocityRows vel_end ((deltas time_sequence).zip (deltas position_sequence)) with
    | .error e => .error e
    | .ok rows =>
      match solveBanded 0 0 ((0, 1, 0, vel_start) :: rows) with
      | .error e => .error e
      | .ok coefficients =>
        .ok (vel_start ::
          ((List.range (time_sequence.length - 2)).map
              (fun i => coefficients.getD ((i + 1) * 3) 0) ++ [vel_end]))

/-- Rows assembled by `generate_positions_continuous_acceleration` (band
`(1, 0)`: no superdiagonal).  Middle segments contribute the velocity row
and the acceleration-continuity row; the final segment only the velocity
row. -/
def positionRows : List (K × K) → Except Err (List (K × K × K × K))
  | [] => .ok []
  | [(dt, dv)] => .ok [(2 * dt, 3 * dt ^ 2, 0, dv)]
  | (dt, dv) :: rest => do
    let q ← pydiv dv (2 * dt)
    let tail ← positionRows rest
    .ok ((2 * dt, 3 * dt ^ 2, 0, dv) :: (3 * dt / 2, -1, 0, -q) :: tail)

/-- `calculate_delta_position` (inside
`generate_positions_continuous_acceleration`). -/
def calculate_delta_position (c1 c2 c3 delta_time : K) : K :=
  c1 * delta_time + c2 * delta_time ^ 2 + c3 * delta_time ^ 3

/-- `generate_positions_continuous_acceleration`: assemble the banded
system, solve it, then accumulate positions segment by segment starting from
`pos_start`, and finally append `pos_end` (the Python code appends it after
the loop, so the returned list has one more entry than `time_sequence`;
`generate_positions` only reads the first `len(time_sequence)` entries). -/
def generate_positions_continuous_acceleration
    (velocity_sequence time_sequence : List K) (pos_start pos_end : K) :
    Except Err (List K) :=
  if time_sequence.length < 2 then .error .tooFewPoints
  else
    match positionRows ((deltas time_sequence).zip (deltas velocity_sequence)) with
    | .error e => .error e
    | .ok rows =>
      match solveBanded 0 0 ((0, 1, 0, 0) :: rows) with
      | .error e => .error e
      | .ok coefficients =>
        .ok ((List.range (time_sequence.length - 1)).foldl
            (fun acc i => acc ++ [acc.getLastD 0 +
              calculate_delta_position
                (velocity_sequence.getD i 0)
                (coefficients.getD (i * 2) 0)
                (coefficients.getD (i * 2 + 1) 0)
                (time_sequence.getD (i + 1) 0 - time_sequence.getD i 0)])
            [pos_start] ++ [pos_end])

lemma velocityRows_dt_zero :
    ∀ (sd : List (K × K)) (ve : K), (∃ x ∈ sd, x.1 = 0) →
      velocityRows ve sd = .error .divisionByZero := by
  intro sd
  induction sd with
  | nil => intro ve h; simp at h
  | cons hd tl ih =>
    intro ve h
    obtain ⟨dt, dp⟩ := hd
    cases tl with
    | nil =>
      simp at h
      simp [velocityRows, pydiv, h, Bind.bind, Except.bind]
    | cons hd2 tl2 =>
      by_cases hdt : dt = 0
      · simp [velocityRows, pydiv, hdt, Bind.bind, Except.bind]
      · have hmem : ∃ x ∈ hd2 :: tl2, x.1 = 0 := by
          obtain ⟨x, hx, hx0⟩ := h
          rcases List.mem_cons.mp hx with rfl | hx2
          · exact absurd hx0 hdt
          · exact ⟨x, hx2, hx0⟩
        have hdt2 : dt ^ 2 ≠ 0 := pow_ne_zero 2 hdt
        have htail := ih ve hmem
        rw [show velocityRows ve ((dt, dp) :: hd2 :: tl2) = (do
          let q1 ← pydiv dp dt
          let q2 ← pydiv 1 dt
          let q3 ← pydiv dp (dt ^ 2)
          let tail ← velocityRows ve (hd2 :: tl2)
          .ok ((dt, dt ^ 2, dt ^ 3, dp) :: (dt, 2 * dt ^ 2, -1, -q1) ::
            (dt, q2, -1, q3) :: tail)) from rfl]
        simp only [pydiv, if_neg hdt, if_neg hdt2, htail, Bind.bind, Except.bind]

lemma positionRows_sup_zero :
    ∀ (sd : List (K × K)) (rows : List (K × K × K × K)),
      positionRows sd = .ok rows → ∀ r ∈ rows, r.2.2.1 = 0 := by
  intro sd
  induction sd with
  | nil =>
    intro rows h r hr
    simp [positionRows] at h
    subst h
    simp at hr
  | cons hd tl ih =>
    intro rows h r hr
    obtain ⟨dt, dv⟩ := hd
    cases tl with
    | nil =>
      simp [positionRows] at h
      rw [← h] at hr
      simp at hr
      simp [hr]
    | cons hd2 tl2 =>
      by_cases hdt : (2 : K) * dt = 0
      · simp [positionRows, pydiv, hdt, Bind.bind, Except.bind] at h
      · cases htail : positionRows (hd2 :: tl2) with
        | error e =>
          simp [positionRows, pydiv, hdt, Bind.bind, Except.bind, htail] at h
        | ok tailRows =>
          simp [positionRows, pydiv, hdt, Bind.bind, Except.bind, htail] at h
          rw [← h] at hr
          simp at hr
          rcases hr with hr | hr | hr
          · simp [hr]
          · simp [hr]
          · exact ih tailRows htail r hr

lemma positionRows_dt_zero :
    ∀ (sd : List (K × K)), (∃ x ∈ sd, x.1 = 0) →
      positionRows sd = .error .divisionByZero ∨
      ∃ rows, positionRows sd = .ok rows ∧ ∃ r ∈ rows, r.2.1 = 0 := by
  intro sd
  induction sd with
  | nil => intro h; simp at h
  | cons hd tl ih =>
    intro h
    obtain ⟨dt, dv⟩ := hd
    cases tl with
    | nil =>
      simp at h
      refine Or.inr ⟨[(2 * dt, 3 * dt ^ 2, 0, dv)], by simp [positionRows], ?_⟩
      exact ⟨(2 * dt, 3 * dt ^ 2, 0, dv), by simp, by simp [h]⟩
    | cons hd2 tl2 =>
      by_cases hdt : dt = 0
      · left
        simp [positionRows, pydiv, hdt, Bind.bind, Except.bind]
      · have hmem : ∃ x ∈ hd2 :: tl2, x.1 = 0 := by
          obtain ⟨x, hx, hx0⟩ := h
          rcases List.mem_cons.mp hx with rfl | hx2
          · exact absurd hx0 hdt
          · exact ⟨x, hx2, hx0⟩
        have h2dt : (2 : K) * dt ≠ 0 := by
          simpa using hdt
        rcases ih hmem with htail | ⟨tailRows, htail, r, hr, hr0⟩
        · left
          simp [positionRows, pydiv, h2dt, Bind.bind, Except.bind, htail]
        · right
          refine ⟨(2 * dt, 3 * dt ^ 2, 0, dv) :: (3 * dt / 2, -1, 0, -(dv / (2 * dt))) :: tailRows,
            by simp [positionRows, pydiv, h2dt, Bind.bind, Except.bind, htail], ?_⟩
          exact ⟨r, by simp [hr], hr0⟩

/-- Forward substitution on a system with no superdiagonal fails with the
singular-system error whenever some diagonal entry is zero. -/
lemma solveBanded_zero_diag :
    ∀ (rows : List (K × K × K × K)) (dp : K),
      (∀ r ∈ rows, r.2.2.1 = 0) → (∃ r ∈ rows, r.2.1 = 0) →
      solveBanded 0 dp rows = .error .singularSystem := by
  intro rows
  induction rows with
  | nil => intro dp hsup h; simp at h
  | cons hd tl ih =>
    intro dp hsup h
    obtain ⟨a, b, c, d⟩ := hd
    by_cases hb : b = 0
    · rw [solveBanded]
      simp [hb]
    · have hmem : ∃ r ∈ tl, r.2.1 = 0 := by
        rcases h with ⟨r, hr, hr0⟩
        rcases List.mem_cons.mp hr with rfl | hr
        · exact absurd hr0 (by simpa using hb)
        · exact ⟨r, hr, hr0⟩
      have hcz : c = 0 := by
        have := hsup (a, b, c, d) (by simp)
        simpa using this
      rw [solveBanded]
      have hm : ¬(b - a * 0 = 0) := by simpa using hb
      rw [if_neg hm]
      have hrec := ih ((d - a * dp) / (b - a * 0)) (fun r hr => hsup r (by simp [hr])) hmem
      have hcp : c / (b - a * 0) = 0 := by simp [hcz]
      rw [hcp, hrec]

lemma deltas_getD (ts : List K) (i : ℕ) (h : i + 1 < ts.length) :
    (deltas ts).getD i 0 = ts.getD (i + 1) 0 - ts.getD i 0 := by
  have h1 : i < (deltas ts).length := by
    simp [deltas]
    omega
  have h2 : i < ts.tail.length := by simp; omega
  have h3 : i < ts.length := by omega
  rw [List.getD_eq_getElem _ _ h1, List.getD_eq_getElem _ _ h3,
    List.getD_eq_getElem _ _ h]
  simp [deltas, List.getElem_tail]

lemma deltas_length (ts : List K) : (deltas ts).length = ts.length - 1 := by
  simp [deltas]

/-- C9 (counterexample to the claim as stated): with `delta_t == 0` the
velocity solver fails during system assembly with the model of Python's
`ZeroDivisionError` — the banded solve (whose singularity failure is
`Err.singularSystem`, the model of `LinAlgError`) is never reached. -/
theorem degenerate_spacing_counterexample :
    generate_velocities_continuous_acceleration (K := ℚ) [0, 0] [0, 0] 0 0 =
      .error .divisionByZero ∧ Err.divisionByZero ≠ Err.singularSystem := by
  refine ⟨?_, by decide⟩
  norm_num [generate_velocities_continuous_acceleration, deltas, velocityRows,
    pydiv, Bind.bind, Except.bind]

/-- C9 (amended): each solver fails — returning no sequence — when given
fewer than 2 points; and when two consecutive points have equal times, the
velocity solver fails with the division-by-zero of the assembly, while the
position solver fails either with that division-by-zero (interior segment)
or with the singular banded solve (final segment). -/
theorem continuous_acceleration_degenerate_failure :
    (∀ (ps ts : List K) (vs ve : K), ts.length < 2 →
      generate_velocities_continuous_acceleration ps ts vs ve = .error .tooFewPoints) ∧
    (∀ (ps ts : List K) (vs ve : K) (i : ℕ), ps.length = ts.length →
      i + 1 < ts.length → ts.getD i 0 = ts.getD (i + 1) 0 →
      generate_velocities_continuous_acceleration ps ts vs ve = .error .divisionByZero) ∧
    (∀ (vels ts : List K) (p0 pe : K), ts.length < 2 →
      generate_positions_continuous_acceleration vels ts p0 pe = .error .tooFewPoints) ∧
    (∀ (vels ts : List K) (p0 pe : K) (i : ℕ), vels.length = ts.length →
      i + 1 < ts.length → ts.getD i 0 = ts.getD (i + 1) 0 →
      generate_positions_continuous_acceleration vels ts p0 pe = .error .divisionByZero ∨
      generate_positions_continuous_acceleration vels ts p0 pe = .error .singularSystem) := by
  have hmem : ∀ (other ts : List K) (i : ℕ), other.length = ts.length →
      i + 1 < ts.length → ts.getD i 0 = ts.getD (i + 1) 0 →
      ∃ x ∈ (deltas ts).zip (deltas other), x.1 = 0 := by
    intro other ts i hlen hi heq
    have hziplen : i < ((deltas ts).zip (deltas other)).length := by
      simp [deltas_length, hlen]
      omega
    refine ⟨((deltas ts).zip (deltas other))[i], List.getElem_mem _, ?_⟩
    rw [List.getElem_zip]
    have hbd : i < (deltas ts).length := by
      simp [deltas_length]
      omega
    have : (deltas ts)[i] = (deltas ts).getD i 0 := by
      rw [List.getD_eq_getElem]
    simp only [this]
    rw [deltas_getD ts i hi, heq]
    ring
  refine ⟨?_, ?_, ?_, ?_⟩
  · intro ps ts vs ve h
    simp [generate_velocities_continuous_acceleration, if_pos h]
  · intro ps ts vs ve i hlen hi heq
    have h2 : ¬ts.length < 2 := by omega
    have hrows := velocityRows_dt_zero ((deltas ts).zip (deltas ps)) ve (hmem ps ts i hlen hi heq)
    unfold generate_velocities_continuous_acceleration
    rw [if_neg h2]
    simp only [hrows]
  · intro vels ts p0 pe h
    simp [generate_positions_continuous_acceleration, if_pos h]
  · intro vels ts p0 pe i hlen hi heq
    have h2 : ¬ts.length < 2 := by omega
    rcases positionRows_dt_zero ((deltas ts).zip (deltas vels)) (hmem vels ts i hlen hi heq) with
      hrows | ⟨rows, hrows, r, hr, hr0⟩
    · left
      unfold generate_positions_continuous_acceleration
      rw [if_neg h2]
      simp only [hrows]
    · right
      have hsup : ∀ r' ∈ (0, 1, 0, (0 : K)) :: rows, r'.2.2.1 = 0 := by
        intro r' hr'
        rcases List.mem_cons.mp hr' with rfl | hr'
        · rfl
        · exact positionRows_sup_zero _ _ hrows r' hr'
      have hdiag : ∃ r' ∈ (0, 1, 0, (0 : K)) :: rows, r'.2.1 = 0 := ⟨r, by simp [hr], hr0⟩
      have hsolve := solveBanded_zero_diag ((0, 1, 0, (0 : K)) :: rows) 0 hsup hdiag
      unfold generate_positions_continuous_acceleration
      rw [if_neg h2]
      simp only [hrows, hsolve]

/-- C9 witness: concrete instances of all four amended failure modes. -/
theorem continuous_acceleration_degenerate_failure_witness :
    generate_velocities_continuous_acceleration (K := ℚ) [0] [0] 0 0 = .error .tooFewPoints ∧
    generate_velocities_continuous_acceleration (K := ℚ) [2, 3] [1, 1] 0 0 =
      .error .divisionByZero ∧
    generate_positions_continuous_acceleration (K := ℚ) [0] [0] 0 0 = .error .tooFewPoints ∧
    (generate_positions_continuous_acceleration (K := ℚ) [2, 3] [1, 1] 0 0 =
        .error .divisionByZero ∨
      generate_positions_continuous_acceleration (K := ℚ) [2, 3] [1, 1] 0 0 =
        .error .singularSystem) :=
  ⟨continuous_acceleration_degenerate_failure.1 [0] [0] 0 0 (by norm_num),
   continuous_acceleration_degenerate_failure.2.1 [2, 3] [1, 1] 0 0 0 (by norm_num)
     (by norm_num) rfl,
   continuous_acceleration_degenerate_failure.2.2.1 [0] [0] 0 0 (by norm_num),
   continuous_acceleration_degenerate_failure.2.2.2 [2, 3] [1, 1] 0 0 0 (by norm_num)
     (by norm_num) rfl⟩

lemma zip_getD {A B : Type} (l1 : List A) (l2 : List B) (i : ℕ) (d1 : A) (d2 : B)
    (h1 : i < l1.length) (h2 : i < l2.length) :
    (l1.zip l2).getD i (d1, d2) = (l1.getD i d1, l2.getD i d2) := by
  rw [List.getD_eq_getElem _ _ (by simp; omega), List.getD_eq_getElem _ _ h1,
    List.getD_eq_getElem _ _ h2, List.getElem_zip]

/-- Indexed characterization of the rows assembled by the velocity solver:
row `3j` is segment `j`'s position row; rows `3j+1`, `3j+2` are its velocity
and acceleration continuity rows (middle segments) or its end-velocity row
(final segment); and every `delta_time` is nonzero (the divisions
succeeded). -/
lemma velocityRows_spec :
    ∀ (sd : List (K × K)) (ve : K) (rows : List (K × K × K × K)),
      velocityRows ve sd = .ok rows →
      rows.length = 3 * sd.length - 1 ∧
      ∀ j, j < sd.length →
        (sd.getD j (0, 0)).1 ≠ 0 ∧
        rows.getD (3 * j) (0, 0, 0, 0) =
          ((sd.getD j (0, 0)).1, (sd.getD j (0, 0)).1 ^ 2,
            (sd.getD j (0, 0)).1 ^ 3, (sd.getD j (0, 0)).2) ∧
        (j < sd.length - 1 →
          rows.getD (3 * j + 1) (0, 0, 0, 0) =
            ((sd.getD j (0, 0)).1, 2 * (sd.getD j (0, 0)).1 ^ 2, -1,
              -((sd.getD j (0, 0)).2 / (sd.getD j (0, 0)).1)) ∧
          rows.getD (3 * j + 2) (0, 0, 0, 0) =
            ((sd.getD j (0, 0)).1, 1 / (sd.getD j (0, 0)).1, -1,
              (sd.getD j (0, 0)).2 / (sd.getD j (0, 0)).1 ^ 2)) ∧
        (j = sd.length - 1 →
          rows.getD (3 * j + 1) (0, 0, 0, 0) =
            ((sd.getD j (0, 0)).1, 2 * (sd.getD j (0, 0)).1 ^ 2, 0,
              ve - (sd.getD j (0, 0)).2 / (sd.getD j (0, 0)).1)) := by
  intro sd
  induction sd with
  | nil =>
    intro ve rows h
    simp [velocityRows] at h
    subst h
    exact ⟨rfl, by intro j hj; simp at hj⟩
  | cons hd tl ih =>
    intro ve rows h
    obtain ⟨dt, dp⟩ := hd
    cases tl with
    | nil =>
      by_cases hdt : dt = 0
      · rw [show velocityRows ve [(dt, dp)] = (do
            let q ← pydiv dp dt
            .ok [(dt, dt ^ 2, dt ^ 3, dp), (dt, 2 * dt ^ 2, 0, ve - q)]) from rfl] at h
        simp [pydiv, hdt, Bind.bind, Except.bind] at h
      · rw [show velocityRows ve [(dt, dp)] = (do
            let q ← pydiv dp dt
            .ok [(dt, dt ^ 2, dt ^ 3, dp), (dt, 2 * dt ^ 2, 0, ve - q)]) from rfl] at h
        simp only [pydiv, if_neg hdt, Bind.bind, Except.bind, Except.ok.injEq] at h
        subst h
        refine ⟨rfl, ?_⟩
        intro j hj
        have hj0 : j = 0 := by simp at hj; omega
        subst hj0
        exact ⟨hdt, rfl, by intro hlt; simp at hlt, fun _ => rfl⟩
    | cons hd2 tl2 =>
      by_cases hdt : dt = 0
      · rw [show velocityRows ve ((dt, dp) :: hd2 :: tl2) = (do
            let q1 ← pydiv dp dt
            let q2 ← pydiv 1 dt
            let q3 ← pydiv dp (dt ^ 2)
            let tail ← velocityRows ve (hd2 :: tl2)
            .ok ((dt, dt ^ 2, dt ^ 3, dp) :: (dt, 2 * dt ^ 2, -1, -q1) ::
              (dt, q2, -1, q3) :: tail)) from rfl] at h
        simp [pydiv, hdt, Bind.bind, Except.bind] at h
      · have hdt2 : dt ^ 2 ≠ 0 := pow_ne_zero 2 hdt
        rw [show velocityRows ve ((dt, dp) :: hd2 :: tl2) = (do
            let q1 ← pydiv dp dt
            let q2 ← pydiv 1 dt
            let q3 ← pydiv dp (dt ^ 2)
            let tail ← velocityRows ve (hd2 :: tl2)
            .ok ((dt, dt ^ 2, dt ^ 3, dp) :: (dt, 2 * dt ^ 2, -1, -q1) ::
              (dt, q2, -1, q3) :: tail)) from rfl] at h
        simp only [pydiv, if_neg hdt, if_neg hdt2, Bind.bind, Except.bind] at h
        cases htail : velocityRows ve (hd2 :: tl2) with
        | error e => rw [htail] at h; exact absurd h (by simp)
        | ok tail =>
          rw [htail] at h
          simp only [Except.ok.injEq] at h
          subst h
          obtain ⟨hlen, hspec⟩ := ih ve tail htail
          constructor
          · simp only [List.length_cons, hlen]
            simp only [List.length_cons] at *
            omega
          · intro j hj
            cases j with
            | zero =>
              refine ⟨hdt, rfl, ?_, ?_⟩
              · intro hlt
                exact ⟨rfl, rfl⟩
              · intro hfin
                exfalso
                simp only [List.length_cons] at hfin
                omega
            | succ j' =>
              have hj' : j' < (hd2 :: tl2).length := by
                simp at hj ⊢
                omega
              obtain ⟨hne, hpos, hmid, hfin⟩ := hspec j' hj'
              have e0 : 3 * (j' + 1) = 3 * j' + 1 + 1 + 1 := by ring
              have e1 : 3 * (j' + 1) + 1 = 3 * j' + 1 + 1 + 1 + 1 := by ring
              have e2 : 3 * (j' + 1) + 2 = 3 * j' + 2 + 1 + 1 + 1 := by ring
              refine ⟨by simpa using hne, ?_, ?_, ?_⟩
              · rw [e0]
                simpa using hpos
              · intro hlt
                have hlt' : j' < (hd2 :: tl2).length - 1 := by
                  simp at hlt ⊢
                  omega
                obtain ⟨hm1, hm2⟩ := hmid hlt'
                constructor
                · rw [e1]
                  simpa using hm1
                · rw [e2]
                  simpa using hm2
              · intro hf
                have hf' : j' = (hd2 :: tl2).length - 1 := by
                  simp at hf ⊢
                  omega
                rw [e1]
                simpa using hfin hf'

/-- Indexed characterization of the rows assembled by the position solver:
row `2j` is segment `j`'s velocity row; row `2j+1` (middle segments only) is
its acceleration-continuity row, whose division forces `delta_time ≠ 0`. -/
lemma positionRows_spec :
    ∀ (sd : List (K × K)) (rows : List (K × K × K × K)),
      positionRows sd = .ok rows →
      rows.length = 2 * sd.length - 1 ∧
      ∀ j, j < sd.length →
        rows.getD (2 * j) (0, 0, 0, 0) =
          (2 * (sd.getD j (0, 0)).1, 3 * (sd.getD j (0, 0)).1 ^ 2, 0,
            (sd.getD j (0, 0)).2) ∧
        (j < sd.length - 1 →
          (sd.getD j (0, 0)).1 ≠ 0 ∧
          rows.getD (2 * j + 1) (0, 0, 0, 0) =
            (3 * (sd.getD j (0, 0)).1 / 2, -1, 0,
              -((sd.getD j (0, 0)).2 / (2 * (sd.getD j (0, 0)).1)))) := by
  intro sd
  induction sd with
  | nil =>
    intro rows h
    simp [positionRows] at h
    subst h
    exact ⟨rfl, by intro j hj; simp at hj⟩
  | cons hd tl ih =>
    intro rows h
    obtain ⟨dt, dv⟩ := hd
    cases tl with
    | nil =>
      rw [show positionRows [(dt, dv)] = .ok [(2 * dt, 3 * dt ^ 2, 0, dv)] from rfl] at h
      simp only [Except.ok.injEq] at h
      subst h
      refine ⟨rfl, ?_⟩
      intro j hj
      have hj0 : j = 0 := by simp at hj; omega
      subst hj0
      exact ⟨rfl, by intro hlt; simp at hlt⟩
    | cons hd2 tl2 =>
      by_cases hdt : (2 : K) * dt = 0
      · rw [show positionRows ((dt, dv) :: hd2 :: tl2) = (do
            let q ← pydiv dv (2 * dt)
            let tail ← positionRows (hd2 :: tl2)
            .ok ((2 * dt, 3 * dt ^ 2, 0, dv) :: (3 * dt / 2, -1, 0, -q) :: tail))
          from rfl] at h
        simp [pydiv, hdt, Bind.bind, Except.bind] at h
      · rw [show positionRows ((dt, dv) :: hd2 :: tl2) = (do
            let q ← pydiv dv (2 * dt)
            let tail ← positionRows (hd2 :: tl2)
            .ok ((2 * dt, 3 * dt ^ 2, 0, dv) :: (3 * dt / 2, -1, 0, -q) :: tail))
          from rfl] at h
        simp only [pydiv, if_neg hdt, Bind.bind, Except.bind] at h
        cases htail : positionRows (hd2 :: tl2) with
        | error e => rw [htail] at h; exact absurd h (by simp)
        | ok tail =>
          rw [htail] at h
          simp only [Except.ok.injEq] at h
          subst h
          obtain ⟨hlen, hspec⟩ := ih tail htail
          constructor
          · simp only [List.length_cons, hlen]
            simp only [List.length_cons] at *
            omega
          · intro j hj
            cases j with
            | zero =>
              refine ⟨rfl, ?_⟩
              intro hlt
              refine ⟨?_, rfl⟩
              intro h0
              simp at h0
              exact hdt (by rw [h0, mul_zero])
            | succ j' =>
              have hj' : j' < (hd2 :: tl2).length := by
                simp at hj ⊢
                omega
              obtain ⟨hvel, hmid⟩ := hspec j' hj'
              have e0 : 2 * (j' + 1) = 2 * j' + 1 + 1 := by ring
              have e1 : 2 * (j' + 1) + 1 = 2 * j' + 1 + 1 + 1 := by ring
              constructor
              · rw [e0]
                simpa using hvel
              · intro hlt
                have hlt' : j' < (hd2 :: tl2).length - 1 := by
                  simp at hlt ⊢
                  omega
                obtain ⟨hne, hrow⟩ := hmid hlt'
                refine ⟨by simpa using hne, ?_⟩
                rw [e1]
                simpa using hrow

/-- The velocity list `[vel_start] + [x[3k] for k in 1..n-1] + [vel_end]`
read off the solution, entry by entry. -/
lemma extracted_vels_getD (vs ve : K) (xs : List K) (n k : ℕ) (hn : 1 ≤ n) (hk : k ≤ n) :
    (vs :: ((List.range (n - 1)).map (fun i => xs.getD ((i + 1) * 3) 0) ++ [ve])).getD k 0 =
      if k = 0 then vs else if k < n then xs.getD (k * 3) 0 else ve := by
  cases k with
  | zero => rfl
  | succ k' =>
    simp only [List.getD_cons_succ]
    by_cases hk' : k' < n - 1
    · rw [List.getD_append _ _ _ _ (by simpa using hk')]
      rw [List.getD_eq_getElem _ _ (by simpa using hk')]
      simp only [List.getElem_map, List.getElem_range]
      rw [if_neg (by omega), if_pos (by omega)]
    · have hkn : k' + 1 = n := by omega
      rw [if_neg (by omega), if_neg (by omega)]
      have hlen : ((List.range (n - 1)).map (fun i => xs.getD ((i + 1) * 3) 0)).length = n - 1 := by
        simp
      rw [List.getD_eq_getElem?_getD, List.getElem?_append_right (by rw [hlen]; omega)]
      rw [hlen, show k' - (n - 1) = 0 from by omega]
      rfl

lemma extracted_vels_length (vs ve : K) (xs : List K) (n : ℕ) (hn : 1 ≤ n) :
    (vs :: ((List.range (n - 1)).map (fun i => xs.getD ((i + 1) * 3) 0) ++ [ve])).length
      = n + 1 := by
  simp
  omega

/-- The position-accumulation loop of
`generate_positions_continuous_acceleration`: length, first entry, and
consecutive differences. -/
lemma accumulate_positions (f : ℕ → K) (p0 : K) :
    ∀ m : ℕ,
      ((List.range m).foldl (fun acc i => acc ++ [acc.getLastD 0 + f i]) [p0]).length = m + 1 ∧
      ((List.range m).foldl (fun acc i => acc ++ [acc.getLastD 0 + f i]) [p0]).getD 0 0 = p0 ∧
      ∀ k, k < m →
        ((List.range m).foldl (fun acc i => acc ++ [acc.getLastD 0 + f i]) [p0]).getD (k + 1) 0 =
          ((List.range m).foldl (fun acc i => acc ++ [acc.getLastD 0 + f i]) [p0]).getD k 0
            + f k := by
  intro m
  induction m with
  | zero => exact ⟨rfl, rfl, by intro k hk; omega⟩
  | succ m ih =>
    obtain ⟨ihlen, ih0, ihd⟩ := ih
    have hstep : (List.range (m + 1)).foldl (fun acc i => acc ++ [acc.getLastD 0 + f i]) [p0]
        = ((List.range m).foldl (fun acc i => acc ++ [acc.getLastD 0 + f i]) [p0])
          ++ [((List.range m).foldl (fun acc i => acc ++ [acc.getLastD 0 + f i]) [p0]).getLastD 0
            + f m] := by
      rw [List.range_succ, List.foldl_append]
      rfl
    set acc := (List.range m).foldl (fun acc i => acc ++ [acc.getLastD 0 + f i]) [p0] with hacc
    have hne : acc ≠ [] := by
      intro hnil
      rw [hnil] at ihlen
      simp at ihlen
    have hlast : acc.getLastD 0 = acc.getD m 0 := by
      rw [List.getLastD_eq_getLast?, List.getLast?_eq_getElem?]
      rw [List.getD_eq_getElem?_getD, ihlen]
      simp
    refine ⟨?_, ?_, ?_⟩
    · rw [hstep]
      simp [ihlen]
    · rw [hstep]
      rw [List.getD_eq_getElem?_getD, List.getElem?_append_left (by omega), ← ih0,
        List.getD_eq_getElem?_getD]
    · intro k hk
      by_cases hkm : k + 1 < m + 1
      · rw [hstep]
        rw [List.getD_eq_getElem?_getD, List.getElem?_append_left (by omega)]
        rw [show ((acc ++ [acc.getLastD 0 + f m]).getD k 0) = acc.getD k 0 by
          rw [List.getD_eq_getElem?_getD, List.getElem?_append_left (by omega),
            List.getD_eq_getElem?_getD]]
        rw [← List.getD_eq_getElem?_getD]
        exact ihd k (by omega)
      · have hkm' : m = k := by omega
        subst hkm'
        rw [hstep]
        rw [List.getD_eq_getElem?_getD, List.getElem?_append_right (by omega), ihlen]
        simp only [Nat.sub_self, List.getElem?_cons_zero, Option.getD_some]
        rw [show ((acc ++ [acc.getLastD 0 + f m]).getD m 0) = acc.getD m 0 by
          rw [List.getD_eq_getElem?_getD, List.getElem?_append_left (by omega),
            List.getD_eq_getElem?_getD]]
        rw [hlast]

/-- The `c2` coefficient of `calculate_coefficients_1d` for positive
`delta_time`. -/
lemma coeff_c2 (dt pa pb v w : K) (h : 0 < dt) :
    (calculate_coefficients_1d dt pa pb v w).2.2.1
      = 3 * (pb - pa) / dt ^ 2 - (2 * v + w) / dt := by
  simp [calculate_coefficients_1d, if_pos h]

/-- The `c3` coefficient of `calculate_coefficients_1d` for positive
`delta_time`. -/
lemma coeff_c3 (dt pa pb v w : K) (h : 0 < dt) :
    (calculate_coefficients_1d dt pa pb v w).2.2.2
      = -2 * (pb - pa) / dt ^ 3 + (v + w) / dt ^ 2 := by
  simp [calculate_coefficients_1d, if_pos h]

/-- Acceleration continuity at one junction, velocity-generation side: the
five row equations of the banded system force the Hermite cubics built from
the extracted velocities to agree in acceleration at the shared time. -/
lemma junction_velocity_side
    (dt dt' c1 c2 c3 c1' c2' c3' w pa pb pc : K)
    (hdt : 0 < dt) (hdt' : 0 < dt')
    (E1 : dt * c1 + dt ^ 2 * c2 + dt ^ 3 * c3 = pb - pa)
    (E2 : dt * c2 + 2 * dt ^ 2 * c3 + -1 * c1' = -((pb - pa) / dt))
    (E3 : dt * c3 + 1 / dt * c1' + -1 * c2' = (pb - pa) / dt ^ 2)
    (E1' : dt' * c1' + dt' ^ 2 * c2' + dt' ^ 3 * c3' = pc - pb)
    (EW : dt' * c2' + 2 * dt' ^ 2 * c3' = w - (pc - pb) / dt') :
    2 * (calculate_coefficients_1d dt pa pb c1 c1').2.2.1
        + 6 * (calculate_coefficients_1d dt pa pb c1 c1').2.2.2 * dt
      = 2 * (calculate_coefficients_1d dt' pb pc c1' w).2.2.1
        + 6 * (calculate_coefficients_1d dt' pb pc c1' w).2.2.2 * 0 := by
  have hdtne : dt ≠ 0 := hdt.ne'
  have hdtne' : dt' ≠ 0 := hdt'.ne'
  have hc1' : c1' = (pb - pa) / dt + dt * c2 + 2 * dt ^ 2 * c3 := by linarith
  have h1 : 1 / dt * c1' = (pb - pa) / dt ^ 2 + c2 + 2 * dt * c3 := by
    rw [hc1']
    field_simp
    ring
  have hc2' : c2' = c2 + 3 * dt * c3 := by linarith [E3, h1]
  have hw : w = (pc - pb) / dt' + dt' * c2' + 2 * dt' ^ 2 * c3' := by linarith
  have hL : 2 * (calculate_coefficients_1d dt pa pb c1 c1').2.2.1
      + 6 * (calculate_coefficients_1d dt pa pb c1 c1').2.2.2 * dt
      = 2 * c2 + 6 * c3 * dt := by
    rw [coeff_c2 dt pa pb c1 c1' hdt, coeff_c3 dt pa pb c1 c1' hdt]
    rw [hc1', ← E1]
    field_simp
    ring
  have hR : 2 * (calculate_coefficients_1d dt' pb pc c1' w).2.2.1
      + 6 * (calculate_coefficients_1d dt' pb pc c1' w).2.2.2 * 0
      = 2 * c2' := by
    rw [coeff_c2 dt' pb pc c1' w hdt']
    rw [hw, ← E1']
    field_simp
    ring
  rw [hL, hR, hc2']
  ring

/-- Acceleration continuity at one junction, position-generation side. -/
lemma junction_position_side
    (dt dt' va vb vc c2 c3 c2' c3' pa pb pc : K)
    (hdt : 0 < dt) (hdt' : 0 < dt')
    (hpb : pb - pa = va * dt + c2 * dt ^ 2 + c3 * dt ^ 3)
    (hpc : pc - pb = vb * dt' + c2' * dt' ^ 2 + c3' * dt' ^ 3)
    (R1 : 2 * dt * c2 + 3 * dt ^ 2 * c3 = vb - va)
    (R2 : 3 * dt / 2 * c3 + -1 * c2' = -((vb - va) / (2 * dt)))
    (R1' : 2 * dt' * c2' + 3 * dt' ^ 2 * c3' = vc - vb) :
    2 * (calculate_coefficients_1d dt pa pb va vb).2.2.1
        + 6 * (calculate_coefficients_1d dt pa pb va vb).2.2.2 * dt
      = 2 * (calculate_coefficients_1d dt' pb pc vb vc).2.2.1
        + 6 * (calculate_coefficients_1d dt' pb pc vb vc).2.2.2 * 0 := by
  have hdtne : dt ≠ 0 := hdt.ne'
  have hdtne' : dt' ≠ 0 := hdt'.ne'
  have hvb : vb = va + 2 * dt * c2 + 3 * dt ^ 2 * c3 := by linarith
  have hvc : vc = vb + 2 * dt' * c2' + 3 * dt' ^ 2 * c3' := by linarith
  have hh2 : (calculate_coefficients_1d dt pa pb va vb).2.2.1 = c2 := by
    rw [coeff_c2 dt pa pb va vb hdt, hpb, hvb]
    field_simp
    ring
  have hh3 : (calculate_coefficients_1d dt pa pb va vb).2.2.2 = c3 := by
    rw [coeff_c3 dt pa pb va vb hdt, hpb, hvb]
    field_simp
    ring
  have hh2' : (calculate_coefficients_1d dt' pb pc vb vc).2.2.1 = c2' := by
    rw [coeff_c2 dt' pb pc vb vc hdt', hpc, hvc]
    field_simp
    ring
  have hq : (vb - va) / (2 * dt) = c2 + 3 / 2 * dt * c3 := by
    rw [show vb - va = 2 * dt * c2 + 3 * dt ^ 2 * c3 from R1.symm]
    field_simp
    ring
  have hc2' : c2' = c2 + 3 * dt * c3 := by linarith [R2, hq]
  rw [hh2, hh3, hh2', hc2']
  ring

/-- The point-assembly loop of `generate_velocities` /
`generate_positions` (`Point(positions, velocities, time)` per index),
specialized to one axis. -/
def assemblePoints1 (ps vels ts : List K) : List (Point K) :=
  List.zipWith (fun pv t => ⟨[pv.1], [pv.2], t⟩) (ps.zip vels) ts

/-- Matching acceleration of two consecutive segments at their junction
time: `segment[i].acceleration(t_i) == segment[i+1].acceleration(t_i)`. -/
def accelMatch (s1 s2 : Segment K) : Prop :=
  s1.acceleration s1.endPoint.time = s2.acceleration s1.endPoint.time

/-- Acceleration of a 1-D segment within its valid time range. -/
lemma accel_1d (pa pb va vb ta tb t : K) (h1 : ta ≤ t) (h2 : t ≤ tb + tol) :
    (Segment.mk ⟨[pa], [va], ta⟩ ⟨[pb], [vb], tb⟩).acceleration t =
      some [2 * (calculate_coefficients_1d (tb - ta) pa pb va vb).2.2.1
        + 6 * (calculate_coefficients_1d (tb - ta) pa pb va vb).2.2.2 * (t - ta)] := by
  rw [Segment.acceleration, if_pos ⟨h1, h2⟩]
  rfl

lemma generated_velocities_continuity
    (ps ts : List K) (vs ve : K) (vels : List K)
    (hlen : ps.length = ts.length) (h3 : 3 ≤ ts.length)
    (hmono : List.Chain' (· < ·) ts)
    (hgen : generate_velocities_continuous_acceleration ps ts vs ve = .ok vels) :
    ∃ seq : Sequence K, buildSequence (assemblePoints1 ps vels ts) = some seq ∧
      List.Chain' accelMatch seq.segments := by
  have hlen2 : ¬ts.length < 2 := by omega
  set n := ts.length - 1 with hn
  have hn2 : 2 ≤ n := by omega
  unfold generate_velocities_continuous_acceleration at hgen
  rw [if_neg hlen2] at hgen
  set sd := (deltas ts).zip (deltas ps) with hsd
  cases hrows : velocityRows ve sd with
  | error e =>
    simp only [hrows] at hgen
    exact absurd hgen (by simp)
  | ok rows =>
  simp only [hrows] at hgen
  cases hsol : solveBanded 0 0 ((0, 1, 0, vs) :: rows) with
  | error e =>
    simp only [hsol] at hgen
    exact absurd hgen (by simp)
  | ok xs =>
  simp only [hsol, Except.ok.injEq] at hgen
  -- basic lengths and spec facts
  have hsdlen : sd.length = n := by
    rw [hsd]
    simp [deltas_length]
    omega
  obtain ⟨hrowslen, hrowspec⟩ := velocityRows_spec sd ve rows hrows
  have hsat := solveBanded_sat _ _ _ _ hsol 0 (by simp)
  obtain ⟨hxslen, hidx⟩ := triSat_index _ _ _ hsat
  have hEQ : ∀ k, k < rows.length →
      (rows.getD k (0, 0, 0, 0)).1 * xs.getD k 0
        + (rows.getD k (0, 0, 0, 0)).2.1 * xs.getD (k + 1) 0
        + (rows.getD k (0, 0, 0, 0)).2.2.1 * xs.getD (k + 2) 0
        = (rows.getD k (0, 0, 0, 0)).2.2.2 := by
    intro k hk
    exact hidx (k + 1) (by simp only [List.length_cons]; omega)
  have hx0 : xs.getD 0 0 = vs := by
    have h0 := hidx 0 (by simp only [List.length_cons]; omega)
    have h0' : (0 : K) * 0 + 1 * xs.getD 0 0 + 0 * xs.getD 1 0 = vs := h0
    linarith [h0']
  -- segment data values
  have hsdget : ∀ j, j < n → sd.getD j (0, 0) =
      (ts.getD (j + 1) 0 - ts.getD j 0, ps.getD (j + 1) 0 - ps.getD j 0) := by
    intro j hj
    rw [hsd, zip_getD _ _ _ _ _ (by rw [deltas_length]; omega)
      (by rw [deltas_length, hlen]; omega)]
    rw [deltas_getD ts j (by omega), deltas_getD ps j (by rw [hlen]; omega)]
  have hts : ∀ j, j < n → ts.getD j 0 < ts.getD (j + 1) 0 := by
    intro j hj
    have h := List.chain'_iff_get.mp hmono j (by omega)
    rw [List.getD_eq_getElem _ _ (show j < ts.length by omega),
      List.getD_eq_getElem _ _ (show j + 1 < ts.length by omega)]
    simpa [List.get_eq_getElem] using h
  -- velocities
  have hveq : vels = vs ::
      ((List.range (n - 1)).map (fun i => xs.getD ((i + 1) * 3) 0) ++ [ve]) := by
    rw [← hgen, show ts.length - 2 = n - 1 from by omega]
  have hvlen : vels.length = n + 1 := by
    rw [hveq]
    exact extracted_vels_length _ _ _ _ (by omega)
  have hvget : ∀ k, k ≤ n → vels.getD k 0 =
      if k = 0 then vs else if k < n then xs.getD (k * 3) 0 else ve := by
    intro k hk
    rw [hveq]
    exact extracted_vels_getD _ _ _ _ _ (by omega) hk
  have hvx : ∀ k, k ≤ n - 1 → vels.getD k 0 = xs.getD (3 * k) 0 := by
    intro k hk
    rw [hvget k (by omega)]
    by_cases hk0 : k = 0
    · subst hk0
      simpa using hx0.symm
    · rw [if_neg hk0, if_pos (by omega), mul_comm]
  -- points
  set pts := assemblePoints1 ps vels ts with hpts
  have htslen : ts.length = n + 1 := by omega
  have hptslen : pts.length = n + 1 := by
    rw [hpts]
    simp only [assemblePoints1, List.length_zipWith, List.length_zip, hvlen, hlen, htslen,
      min_self]
  have hptget : ∀ i, i < n + 1 → pts.getD i ⟨[], [], 0⟩ =
      ⟨[ps.getD i 0], [vels.getD i 0], ts.getD i 0⟩ := by
    intro i h
    rw [hpts]
    rw [List.getD_eq_getElem _ _ (by rw [← hpts, hptslen]; exact h)]
    simp only [assemblePoints1]
    rw [List.getElem_zipWith, List.getElem_zip]
    congr 2 <;> rw [List.getD_eq_getElem]
  have hgetD : ∀ (i : ℕ) (h : i < pts.length), pts[i] = pts.getD i ⟨[], [], 0⟩ :=
    fun i h => (List.getD_eq_getElem pts _ h).symm
  have hchain : List.Chain' Compat pts := by
    rw [List.chain'_iff_get]
    intro i hi
    have hi' : i < n := by
      rw [hptslen] at hi
      omega
    simp only [List.get_eq_getElem]
    rw [hgetD i (by omega), hgetD (i + 1) (by omega)]
    rw [hptget i (by omega), hptget (i + 1) (by omega)]
    exact ⟨rfl, (hts i hi').le⟩
  refine ⟨⟨pts, consecutiveSegments pts⟩, buildSequence_eq pts hchain, ?_⟩
  rw [List.chain'_iff_get]
  intro i hi
  have hseglen : (consecutiveSegments pts).length = n := by
    simp only [consecutiveSegments, List.length_zipWith, List.length_tail, hptslen]
    omega
  have hi' : i < n - 1 := by
    rw [hseglen] at hi
    omega
  have hsegget : ∀ (j : ℕ) (h : j < (consecutiveSegments pts).length),
      (consecutiveSegments pts)[j] =
        ⟨⟨[ps.getD j 0], [vels.getD j 0], ts.getD j 0⟩,
          ⟨[ps.getD (j + 1) 0], [vels.getD (j + 1) 0], ts.getD (j + 1) 0⟩⟩ := by
    intro j h
    have hjn : j < n := hseglen ▸ h
    simp only [consecutiveSegments]
    rw [List.getElem_zipWith, List.getElem_tail]
    rw [hgetD j (by rw [hptslen]; omega), hgetD (j + 1) (by rw [hptslen]; omega)]
    rw [hptget j (by omega), hptget (j + 1) (by omega)]
  simp only [List.get_eq_getElem]
  rw [hsegget i (by rw [hseglen]; omega), hsegget (i + 1) (by rw [hseglen]; omega)]
  have htab : ts.getD i 0 < ts.getD (i + 1) 0 := hts i (by omega)
  have htbc : ts.getD (i + 1) 0 < ts.getD (i + 2) 0 := by
    have := hts (i + 1) (by omega)
    exact this
  simp only [accelMatch]
  rw [accel_1d _ _ _ _ _ _ _ htab.le (le_add_of_nonneg_right tol_pos.le)]
  rw [accel_1d _ _ _ _ _ _ _ (le_refl (ts.getD (i + 1) 0))
    (le_trans htbc.le (le_add_of_nonneg_right tol_pos.le))]
  rw [sub_self (ts.getD (i + 1) 0)]
  simp only [Option.some.injEq, List.cons.injEq, and_true]
  -- velocities in terms of the solution
  have hvi : vels.getD i 0 = xs.getD (3 * i) 0 := hvx i (by omega)
  have hvi1 : vels.getD (i + 1) 0 = xs.getD (3 * i + 3) 0 := by
    rw [hvx (i + 1) (by omega)]
    rfl
  rw [hvi, hvi1]
  -- equations from the system
  have hrow0 := (hrowspec i (by omega)).2.1
  have hrowm := (hrowspec i (by omega)).2.2.1 (by omega)
  have hrow0' := (hrowspec (i + 1) (by omega)).2.1
  have hsdi := hsdget i (by omega)
  have hsdi1 := hsdget (i + 1) (by omega)
  rw [show i + 1 + 1 = i + 2 from rfl] at hsdi1
  have hE1 : (ts.getD (i + 1) 0 - ts.getD i 0) * xs.getD (3 * i) 0
      + (ts.getD (i + 1) 0 - ts.getD i 0) ^ 2 * xs.getD (3 * i + 1) 0
      + (ts.getD (i + 1) 0 - ts.getD i 0) ^ 3 * xs.getD (3 * i + 2) 0
      = ps.getD (i + 1) 0 - ps.getD i 0 := by
    have h := hEQ (3 * i) (by omega)
    rw [hrow0, hsdi] at h
    exact h
  have hE2 : (ts.getD (i + 1) 0 - ts.getD i 0) * xs.getD (3 * i + 1) 0
      + 2 * (ts.getD (i + 1) 0 - ts.getD i 0) ^ 2 * xs.getD (3 * i + 2) 0
      + -1 * xs.getD (3 * i + 3) 0
      = -((ps.getD (i + 1) 0 - ps.getD i 0) / (ts.getD (i + 1) 0 - ts.getD i 0)) := by
    have h := hEQ (3 * i + 1) (by omega)
    rw [hrowm.1, hsdi] at h
    exact h
  have hE3 : (ts.getD (i + 1) 0 - ts.getD i 0) * xs.getD (3 * i + 2) 0
      + 1 / (ts.getD (i + 1) 0 - ts.getD i 0) * xs.getD (3 * i + 3) 0
      + -1 * xs.getD (3 * i + 4) 0
      = (ps.getD (i + 1) 0 - ps.getD i 0) / (ts.getD (i + 1) 0 - ts.getD i 0) ^ 2 := by
    have h := hEQ (3 * i + 2) (by omega)
    rw [hrowm.2, hsdi] at h
    exact h
  have hE1' : (ts.getD (i + 2) 0 - ts.getD (i + 1) 0) * xs.getD (3 * i + 3) 0
      + (ts.getD (i + 2) 0 - ts.getD (i + 1) 0) ^ 2 * xs.getD (3 * i + 4) 0
      + (ts.getD (i + 2) 0 - ts.getD (i + 1) 0) ^ 3 * xs.getD (3 * i + 5) 0
      = ps.getD (i + 2) 0 - ps.getD (i + 1) 0 := by
    have h := hEQ (3 * (i + 1)) (by omega)
    rw [hrow0', hsdi1] at h
    exact h
  have hEW : (ts.getD (i + 2) 0 - ts.getD (i + 1) 0) * xs.getD (3 * i + 4) 0
      + 2 * (ts.getD (i + 2) 0 - ts.getD (i + 1) 0) ^ 2 * xs.getD (3 * i + 5) 0
      = vels.getD (i + 2) 0
        - (ps.getD (i + 2) 0 - ps.getD (i + 1) 0) / (ts.getD (i + 2) 0 - ts.getD (i + 1) 0) := by
    by_cases hfin : i + 1 < n - 1
    · -- middle segment: the velocity-continuity row names the next velocity
      have hrowm' := ((hrowspec (i + 1) (by omega)).2.2.1 (by omega)).1
      have h := hEQ (3 * (i + 1) + 1) (by omega)
      rw [hrowm', hsdi1] at h
      have h' : (ts.getD (i + 2) 0 - ts.getD (i + 1) 0) * xs.getD (3 * i + 4) 0
          + 2 * (ts.getD (i + 2) 0 - ts.getD (i + 1) 0) ^ 2 * xs.getD (3 * i + 5) 0
          + -1 * xs.getD (3 * i + 6) 0
          = -((ps.getD (i + 2) 0 - ps.getD (i + 1) 0)
            / (ts.getD (i + 2) 0 - ts.getD (i + 1) 0)) := h
      have hv2 : vels.getD (i + 2) 0 = xs.getD (3 * i + 6) 0 := by
        rw [hvx (i + 2) (by omega)]
        rfl
      rw [hv2]
      linarith [h']
    · -- final segment: the end-velocity row carries vel_end
      have hrowf := (hrowspec (i + 1) (by omega)).2.2.2 (by omega)
      have h := hEQ (3 * (i + 1) + 1) (by omega)
      rw [hrowf, hsdi1] at h
      have h' : (ts.getD (i + 2) 0 - ts.getD (i + 1) 0) * xs.getD (3 * i + 4) 0
          + 2 * (ts.getD (i + 2) 0 - ts.getD (i + 1) 0) ^ 2 * xs.getD (3 * i + 5) 0
          + 0 * xs.getD (3 * i + 6) 0
          = ve - (ps.getD (i + 2) 0 - ps.getD (i + 1) 0)
            / (ts.getD (i + 2) 0 - ts.getD (i + 1) 0) := h
      have hv2 : vels.getD (i + 2) 0 = ve := by
        rw [hvget (i + 2) (by omega), if_neg (by omega), if_neg (by omega)]
      rw [hv2]
      linarith [h']
  exact junction_velocity_side
    (ts.getD (i + 1) 0 - ts.getD i 0) (ts.getD (i + 2) 0 - ts.getD (i + 1) 0)
    (xs.getD (3 * i) 0) (xs.getD (3 * i + 1) 0) (xs.getD (3 * i + 2) 0)
    (xs.getD (3 * i + 3) 0) (xs.getD (3 * i + 4) 0) (xs.getD (3 * i + 5) 0)
    (vels.getD (i + 2) 0) (ps.getD i 0) (ps.getD (i + 1) 0) (ps.getD (i + 2) 0)
    (by linarith) (by linarith) hE1 hE2 hE3 hE1' hEW

lemma generated_positions_continuity
    (vels ts : List K) (p0 pe : K) (poss : List K)
    (hlen : vels.length = ts.length) (h3 : 3 ≤ ts.length)
    (hmono : List.Chain' (· < ·) ts)
    (hgen : generate_positions_continuous_acceleration vels ts p0 pe = .ok poss) :
    ∃ seq : Sequence K, buildSequence (assemblePoints1 poss vels ts) = some seq ∧
      List.Chain' accelMatch seq.segments := by
  have hlen2 : ¬ts.length < 2 := by omega
  set n := ts.length - 1 with hn
  have hn2 : 2 ≤ n := by omega
  unfold generate_positions_continuous_acceleration at hgen
  rw [if_neg hlen2] at hgen
  set sd := (deltas ts).zip (deltas vels) with hsd
  cases hrows : positionRows sd with
  | error e =>
    simp only [hrows] at hgen
    exact absurd hgen (by simp)
  | ok rows =>
  simp only [hrows] at hgen
  cases hsol : solveBanded 0 0 ((0, 1, 0, 0) :: rows) with
  | error e =>
    simp only [hsol] at hgen
    exact absurd hgen (by simp)
  | ok xs =>
  simp only [hsol, Except.ok.injEq] at hgen
  have hsdlen : sd.length = n := by
    rw [hsd]
    simp [deltas_length]
    omega
  obtain ⟨hrowslen, hrowspec⟩ := positionRows_spec sd rows hrows
  have hsat := solveBanded_sat _ _ _ _ hsol 0 (by simp)
  obtain ⟨hxslen, hidx⟩ := triSat_index _ _ _ hsat
  have hEQ : ∀ k, k < rows.length →
      (rows.getD k (0, 0, 0, 0)).1 * xs.getD k 0
        + (rows.getD k (0, 0, 0, 0)).2.1 * xs.getD (k + 1) 0
        + (rows.getD k (0, 0, 0, 0)).2.2.1 * xs.getD (k + 2) 0
        = (rows.getD k (0, 0, 0, 0)).2.2.2 := by
    intro k hk
    exact hidx (k + 1) (by simp only [List.length_cons]; omega)
  have hsdget : ∀ j, j < n → sd.getD j (0, 0) =
      (ts.getD (j + 1) 0 - ts.getD j 0, vels.getD (j + 1) 0 - vels.getD j 0) := by
    intro j hj
    rw [hsd, zip_getD _ _ _ _ _ (by rw [deltas_length]; omega)
      (by rw [deltas_length, hlen]; omega)]
    rw [deltas_getD ts j (by omega), deltas_getD vels j (by rw [hlen]; omega)]
  have hts : ∀ j, j < n → ts.getD j 0 < ts.getD (j + 1) 0 := by
    intro j hj
    have h := List.chain'_iff_get.mp hmono j (by omega)
    rw [List.getD_eq_getElem _ _ (show j < ts.length by omega),
      List.getD_eq_getElem _ _ (show j + 1 < ts.length by omega)]
    simpa [List.get_eq_getElem] using h
  -- the accumulated positions
  obtain ⟨hblen, hb0, hbd⟩ := accumulate_positions
    (fun i => calculate_delta_position (vels.getD i 0) (xs.getD (i * 2) 0)
      (xs.getD (i * 2 + 1) 0) (ts.getD (i + 1) 0 - ts.getD i 0)) p0 (ts.length - 1)
  set base := (List.range (ts.length - 1)).foldl
    (fun acc i => acc ++ [acc.getLastD 0 +
      calculate_delta_position (vels.getD i 0) (xs.getD (i * 2) 0)
        (xs.getD (i * 2 + 1) 0) (ts.getD (i + 1) 0 - ts.getD i 0)]) [p0] with hbase
  have hposseq : poss = base ++ [pe] := hgen.symm
  have hpossget : ∀ k, k ≤ n → poss.getD k 0 = base.getD k 0 := by
    intro k hk
    rw [hposseq, List.getD_eq_getElem?_getD, List.getElem?_append_left (by omega),
      ← List.getD_eq_getElem?_getD]
  have hpd : ∀ k, k < n → poss.getD (k + 1) 0 - poss.getD k 0 =
      vels.getD k 0 * (ts.getD (k + 1) 0 - ts.getD k 0)
        + xs.getD (k * 2) 0 * (ts.getD (k + 1) 0 - ts.getD k 0) ^ 2
        + xs.getD (k * 2 + 1) 0 * (ts.getD (k + 1) 0 - ts.getD k 0) ^ 3 := by
    intro k hk
    rw [hpossget (k + 1) (by omega), hpossget k (by omega)]
    have h := hbd k (by omega)
    rw [h]
    simp [calculate_delta_position]
  have hposslen : poss.length = n + 2 := by
    rw [hposseq]
    simp [hblen]
  -- points
  set pts := assemblePoints1 poss vels ts with hpts
  have htslen : ts.length = n + 1 := by omega
  have hptslen : pts.length = n + 1 := by
    rw [hpts]
    simp only [assemblePoints1, List.length_zipWith, List.length_zip, hposslen, hlen, htslen]
    omega
  have hptget : ∀ i, i < n + 1 → pts.getD i ⟨[], [], 0⟩ =
      ⟨[poss.getD i 0], [vels.getD i 0], ts.getD i 0⟩ := by
    intro i h
    rw [hpts]
    rw [List.getD_eq_getElem _ _ (by rw [← hpts, hptslen]; exact h)]
    simp only [assemblePoints1]
    rw [List.getElem_zipWith, List.getElem_zip]
    congr 2 <;> rw [List.getD_eq_getElem]
  have hgetD : ∀ (i : ℕ) (h : i < pts.length), pts[i] = pts.getD i ⟨[], [], 0⟩ :=
    fun i h => (List.getD_eq_getElem pts _ h).symm
  have hchain : List.Chain' Compat pts := by
    rw [List.chain'_iff_get]
    intro i hi
    have hi' : i < n := by
      rw [hptslen] at hi
      omega
    simp only [List.get_eq_getElem]
    rw [hgetD i (by omega), hgetD (i + 1) (by omega)]
    rw [hptget i (by omega), hptget (i + 1) (by omega)]
    exact ⟨rfl, (hts i hi').le⟩
  refine ⟨⟨pts, consecutiveSegments pts⟩, buildSequence_eq pts hchain, ?_⟩
  rw [List.chain'_iff_get]
  intro i hi
  have hseglen : (consecutiveSegments pts).length = n := by
    simp only [consecutiveSegments, List.length_zipWith, List.length_tail, hptslen]
    omega
  have hi' : i < n - 1 := by
    rw [hseglen] at hi
    omega
  have hsegget : ∀ (j : ℕ) (h : j < (consecutiveSegments pts).length),
      (consecutiveSegments pts)[j] =
        ⟨⟨[poss.getD j 0], [vels.getD j 0], ts.getD j 0⟩,
          ⟨[poss.getD (j + 1) 0], [vels.getD (j + 1) 0], ts.getD (j + 1) 0⟩⟩ := by
    intro j h
    have hjn : j < n := hseglen ▸ h
    simp only [consecutiveSegments]
    rw [List.getElem_zipWith, List.getElem_tail]
    rw [hgetD j (by rw [hptslen]; omega), hgetD (j + 1) (by rw [hptslen]; omega)]
    rw [hptget j (by omega), hptget (j + 1) (by omega)]
  simp only [List.get_eq_getElem]
  rw [hsegget i (by rw [hseglen]; omega), hsegget (i + 1) (by rw [hseglen]; omega)]
  have htab : ts.getD i 0 < ts.getD (i + 1) 0 := hts i (by omega)
  have htbc : ts.getD (i + 1) 0 < ts.getD (i + 2) 0 := hts (i + 1) (by omega)
  simp only [accelMatch]
  rw [accel_1d _ _ _ _ _ _ _ htab.le (le_add_of_nonneg_right tol_pos.le)]
  rw [accel_1d _ _ _ _ _ _ _ (le_refl (ts.getD (i + 1) 0))
    (le_trans htbc.le (le_add_of_nonneg_right tol_pos.le))]
  rw [sub_self (ts.getD (i + 1) 0)]
  simp only [Option.some.injEq, List.cons.injEq, and_true]
  -- system equations
  have hrowv := (hrowspec i (by omega)).1
  have hrowm := (hrowspec i (by omega)).2 (by omega)
  have hrowv' := (hrowspec (i + 1) (by omega)).1
  have hsdi := hsdget i (by omega)
  have hsdi1 := hsdget (i + 1) (by omega)
  rw [show i + 1 + 1 = i + 2 from rfl] at hsdi1
  have hR1 : 2 * (ts.getD (i + 1) 0 - ts.getD i 0) * xs.getD (2 * i) 0
      + 3 * (ts.getD (i + 1) 0 - ts.getD i 0) ^ 2 * xs.getD (2 * i + 1) 0
      = vels.getD (i + 1) 0 - vels.getD i 0 := by
    have h := hEQ (2 * i) (by omega)
    rw [hrowv, hsdi] at h
    have h' : 2 * (ts.getD (i + 1) 0 - ts.getD i 0) * xs.getD (2 * i) 0
        + 3 * (ts.getD (i + 1) 0 - ts.getD i 0) ^ 2 * xs.getD (2 * i + 1) 0
        + 0 * xs.getD (2 * i + 2) 0
        = vels.getD (i + 1) 0 - vels.getD i 0 := h
    linarith [h']
  have hR2 : 3 * (ts.getD (i + 1) 0 - ts.getD i 0) / 2 * xs.getD (2 * i + 1) 0
      + -1 * xs.getD (2 * i + 2) 0
      = -((vels.getD (i + 1) 0 - vels.getD i 0)
        / (2 * (ts.getD (i + 1) 0 - ts.getD i 0))) := by
    have h := hEQ (2 * i + 1) (by omega)
    rw [hrowm.2, hsdi] at h
    have h' : 3 * (ts.getD (i + 1) 0 - ts.getD i 0) / 2 * xs.getD (2 * i + 1) 0
        + -1 * xs.getD (2 * i + 2) 0
        + 0 * xs.getD (2 * i + 3) 0
        = -((vels.getD (i + 1) 0 - vels.getD i 0)
          / (2 * (ts.getD (i + 1) 0 - ts.getD i 0))) := h
    linarith [h']
  have hR1' : 2 * (ts.getD (i + 2) 0 - ts.getD (i + 1) 0) * xs.getD (2 * i + 2) 0
      + 3 * (ts.getD (i + 2) 0 - ts.getD (i + 1) 0) ^ 2 * xs.getD (2 * i + 3) 0
      = vels.getD (i + 2) 0 - vels.getD (i + 1) 0 := by
    have h := hEQ (2 * (i + 1)) (by omega)
    rw [hrowv', hsdi1] at h
    have h' : 2 * (ts.getD (i + 2) 0 - ts.getD (i + 1) 0) * xs.getD (2 * i + 2) 0
        + 3 * (ts.getD (i + 2) 0 - ts.getD (i + 1) 0) ^ 2 * xs.getD (2 * i + 3) 0
        + 0 * xs.getD (2 * i + 4) 0
        = vels.getD (i + 2) 0 - vels.getD (i + 1) 0 := h
    linarith [h']
  have hpb : poss.getD (i + 1) 0 - poss.getD i 0 =
      vels.getD i 0 * (ts.getD (i + 1) 0 - ts.getD i 0)
        + xs.getD (2 * i) 0 * (ts.getD (i + 1) 0 - ts.getD i 0) ^ 2
        + xs.getD (2 * i + 1) 0 * (ts.getD (i + 1) 0 - ts.getD i 0) ^ 3 := by
    have h := hpd i (by omega)
    rw [show i * 2 = 2 * i from by ring] at h
    exact h
  have hpc : poss.getD (i + 2) 0 - poss.getD (i + 1) 0 =
      vels.getD (i + 1) 0 * (ts.getD (i + 2) 0 - ts.getD (i + 1) 0)
        + xs.getD (2 * i + 2) 0 * (ts.getD (i + 2) 0 - ts.getD (i + 1) 0) ^ 2
        + xs.getD (2 * i + 3) 0 * (ts.getD (i + 2) 0 - ts.getD (i + 1) 0) ^ 3 := by
    have h := hpd (i + 1) (by omega)
    rw [show (i + 1) * 2 = 2 * i + 2 from by ring,
      show i + 1 + 1 = i + 2 from rfl] at h
    exact h
  exact junction_position_side
    (ts.getD (i + 1) 0 - ts.getD i 0) (ts.getD (i + 2) 0 - ts.getD (i + 1) 0)
    (vels.getD i 0) (vels.getD (i + 1) 0) (vels.getD (i + 2) 0)
    (xs.getD (2 * i) 0) (xs.getD (2 * i + 1) 0)
    (xs.getD (2 * i + 2) 0) (xs.getD (2 * i + 3) 0)
    (poss.getD i 0) (poss.getD (i + 1) 0) (poss.getD (i + 2) 0)
    (by linarith) (by linarith) hpb hpc hR1 hR2 hR1'

/-- C1: for every 1-D position sequence and strictly increasing time
sequence of at least 3 points, the velocities returned by
`generate_velocities_continuous_acceleration` (and dually, the positions
returned by `generate_positions_continuous_acceleration` from velocities
and times) yield a `Sequence` whose adjacent cubic segments have equal
acceleration at every interior junction time, in exact arithmetic. -/
theorem continuous_acceleration_junction_continuity :
    (∀ (ps ts : List K) (vs ve : K) (vels : List K),
      ps.length = ts.length → 3 ≤ ts.length → List.Chain' (· < ·) ts →
      generate_velocities_continuous_acceleration ps ts vs ve = .ok vels →
      ∃ seq : Sequence K, buildSequence (assemblePoints1 ps vels ts) = some seq ∧
        List.Chain' accelMatch seq.segments) ∧
    (∀ (vels ts : List K) (p0 pe : K) (poss : List K),
      vels.length = ts.length → 3 ≤ ts.length → List.Chain' (· < ·) ts →
      generate_positions_continuous_acceleration vels ts p0 pe = .ok poss →
      ∃ seq : Sequence K, buildSequence (assemblePoints1 poss vels ts) = some seq ∧
        List.Chain' accelMatch seq.segments) :=
  ⟨fun ps ts vs ve vels h1 h2 h3 h4 =>
      generated_velocities_continuity ps ts vs ve vels h1 h2 h3 h4,
    fun vels ts p0 pe poss h1 h2 h3 h4 =>
      generated_positions_continuity vels ts p0 pe poss h1 h2 h3 h4⟩

theorem continuous_acceleration_junction_continuity_witness :
    (∃ seq : Sequence ℚ,
        buildSequence (assemblePoints1 [0, 0, 0] [0, 0, 0] [0, 1, 2]) = some seq ∧
        List.Chain' accelMatch seq.segments) ∧
    (∃ seq : Sequence ℚ,
        buildSequence (assemblePoints1 [0, 0, 0, 0] [0, 0, 0] [0, 1, 2]) = some seq ∧
        List.Chain' accelMatch seq.segments) :=
  ⟨continuous_acceleration_junction_continuity.1 [0, 0, 0] [0, 1, 2] 0 0 [0, 0, 0]
      (by norm_num) (by norm_num) (by norm_num [List.chain'_cons])
      (by norm_num [generate_velocities_continuous_acceleration, velocityRows, deltas,
        solveBanded, pydiv, Except.bind, bind, List.range_succ]),
    continuous_acceleration_junction_continuity.2 [0, 0, 0] [0, 1, 2] 0 0 [0, 0, 0, 0]
      (by norm_num) (by norm_num) (by norm_num [List.chain'_cons])
      (by norm_num [generate_positions_continuous_acceleration, positionRows, deltas,
        solveBanded, calculate_delta_position, pydiv, Except.bind, bind, List.range_succ])⟩

/-- `speed_limits = [target_speed for _ in u_calc]; speed_limits[0] = speed_limits[-1] = 0`. -/
def speedLimitsInit (tspeed : K) (N : ℕ) : List K :=
  ((List.replicate N tspeed).set 0 0).set (N - 1) 0

/-- The value assigned to `speed_limits[i]` by one backward-pass iteration,
given the current value `old` at `i` and the value `next` at `i + 1`:
`min(old, (next**2 + 2*a*lens[i])**0.5)` then the total-acceleration branch
(`elif`: the curvature limit applies only when `i` is NOT a full reversal). -/
def codeSpeedLimit (sq : K → K) (a : K) (lens den : ℕ → K) (rev : ℕ → Bool)
    (i : ℕ) (old next : K) : K :=
  let v1 := min old (sq (next ^ 2 + 2 * a * lens i))
  if rev i then min v1 0
  else if den i = 0 then v1 else min v1 (sq (sq (a ^ 2 / den i)))

/-- One backward-pass loop iteration at index `i`. -/
def backStep (sq : K → K) (a : K) (lens den : ℕ → K) (rev : ℕ → Bool)
    (sl : List K) (i : ℕ) : List K :=
  sl.set i (codeSpeedLimit sq a lens den rev i (sl.getD i 0) (sl.getD (i + 1) 0))

/-- `for i in reversed(range(1, len(speed_limits) - 1)): ...` over the
initial limits.  `sq` stands for `x ** 0.5`; `lens i` for
`segment_lengths[i]`; `den i` for the curvature denominator at `u_calc[i]`;
`rev i` for `i in reversals and len(reversals[i]) == dim`. -/
def backwardPass (sq : K → K) (tspeed a : K) (lens den : ℕ → K) (rev : ℕ → Bool)
    (N : ℕ) : List K :=
  (List.range' 1 (N - 2)).reverse.foldl (backStep sq a lens den rev)
    (speedLimitsInit tspeed N)

/-- The interior speed limit as the SPEC words it: the minimum of the target
speed, the deceleration bound, zero if the point is a full reversal, and the
curvature limit WHENEVER the denominator is nonzero (no `elif`). -/
def specSpeedLimit (sq : K → K) (tspeed a : K) (lens den : ℕ → K) (rev : ℕ → Bool)
    (i : ℕ) (next : K) : K :=
  let m1 := min tspeed (sq (next ^ 2 + 2 * a * lens i))
  let m2 := if rev i then min m1 0 else m1
  if den i = 0 then m2 else min m2 (sq (sq (a ^ 2 / den i)))

lemma backFold (sq : K → K) (a : K) (lens den : ℕ → K) (rev : ℕ → Bool) :
    ∀ (k : ℕ) (s : List K), k < s.length →
    ((List.range' 1 k).reverse.foldl (backStep sq a lens den rev) s).length = s.length ∧
    (∀ j, j = 0 ∨ k < j →
      ((List.range' 1 k).reverse.foldl (backStep sq a lens den rev) s).getD j 0
        = s.getD j 0) ∧
    (∀ j, 1 ≤ j → j ≤ k →
      ((List.range' 1 k).reverse.foldl (backStep sq a lens den rev) s).getD j 0
        = codeSpeedLimit sq a lens den rev j (s.getD j 0)
            (((List.range' 1 k).reverse.foldl (backStep sq a lens den rev) s).getD
              (j + 1) 0)) := by
  intro k
  induction k with
  | zero =>
    intro s hs
    refine ⟨rfl, fun j _ => rfl, fun j h1 h2 => absurd (h1.trans h2) (by omega)⟩
  | succ k ih =>
    intro s hs
    rw [List.range'_concat, List.reverse_append, List.reverse_singleton]
    simp only [List.singleton_append, List.foldl_cons, one_mul]
    set s' := backStep sq a lens den rev s (1 + k) with hs'
    have hsk : 1 + k = k + 1 := by omega
    have hs'len : s'.length = s.length := by
      rw [hs', backStep, List.length_set]
    have hset : ∀ j, j ≠ k + 1 → s'.getD j 0 = s.getD j 0 := by
      intro j hj
      rw [hs', backStep, List.getD_eq_getElem?_getD, List.getElem?_set_ne (by omega),
        ← List.getD_eq_getElem?_getD]
    have hself : s'.getD (k + 1) 0
        = codeSpeedLimit sq a lens den rev (k + 1) (s.getD (k + 1) 0) (s.getD (k + 2) 0) := by
      rw [hs', backStep, hsk, List.getD_eq_getElem?_getD,
        List.getElem?_set_self (by omega), Option.getD_some]
    obtain ⟨hlen, huntouched, hinterior⟩ := ih s' (by omega)
    refine ⟨by rw [hlen, hs'len], ?_, ?_⟩
    · intro j hj
      rw [huntouched j (by omega), hset j (by omega)]
    · intro j h1 h2
      by_cases hjk : j ≤ k
      · rw [hinterior j h1 hjk, hset j (by omega)]
      · have hjk1 : j = k + 1 := by omega
        subst hjk1
        rw [huntouched (k + 1) (by omega), hself,
          huntouched (k + 2) (by omega), hset (k + 2) (by omega)]

lemma init_getD_zero (tspeed : K) (N : ℕ) (hN : 1 ≤ N) :
    (speedLimitsInit tspeed N).getD 0 0 = 0 ∧
    (speedLimitsInit tspeed N).getD (N - 1) 0 = 0 := by
  constructor
  · by_cases h : N - 1 = 0
    · rw [speedLimitsInit, ← h, List.getD_eq_getElem?_getD,
        List.getElem?_set_self (by simp; omega), Option.getD_some]
    · rw [speedLimitsInit, List.getD_eq_getElem?_getD, List.getElem?_set_ne (by omega),
        List.getElem?_set_self (by simp; omega), Option.getD_some]
  · rw [speedLimitsInit, List.getD_eq_getElem?_getD,
      List.getElem?_set_self (by simp; omega), Option.getD_some]

lemma init_getD_mid (tspeed : K) (N j : ℕ) (h1 : 1 ≤ j) (h2 : j ≤ N - 2) :
    (speedLimitsInit tspeed N).getD j 0 = tspeed := by
  rw [speedLimitsInit, List.getD_eq_getElem?_getD, List.getElem?_set_ne (by omega),
    List.getElem?_set_ne (by omega), List.getElem?_replicate_of_lt (by omega),
    Option.getD_some]

lemma code_eq_spec (sq : K → K) (tspeed a : K) (lens den : ℕ → K) (rev : ℕ → Bool)
    (i : ℕ) (next : K) (hsq : ∀ x, 0 ≤ sq x) :
    codeSpeedLimit sq a lens den rev i tspeed next
      = specSpeedLimit sq tspeed a lens den rev i next := by
  rw [codeSpeedLimit, specSpeedLimit]
  cases hrev : rev i with
  | false => simp only [if_false, Bool.false_eq_true]
  | true =>
    simp only [if_true]
    by_cases hden : den i = 0
    · rw [if_pos hden]
    · rw [if_neg hden]
      exact (min_eq_left (le_trans (min_le_right _ 0) (hsq _))).symm

/-- C3: in the backward pass of `generate_times_and_velocities`, every
interior calculation point's speed limit equals the minimum of the target
speed, the deceleration bound `sqrt(next_limit**2 + 2*a*delta_l)`, zero if
the point is a full reversal, and the curvature limit
`(a**2 / denominator)**(1/4)` whenever the curvature denominator is
nonzero; the first and last limits are zero.  (The code applies the
curvature limit through an `elif`, skipping it at full reversals; this
agrees with the spec's unconditional minimum because the curvature limit
is nonnegative while a full-reversal limit is at most zero.) -/
theorem backward_pass_speed_limits (tspeed a : ℝ) (lens den : ℕ → ℝ)
    (rev : ℕ → Bool) (N : ℕ) (hN : 3 ≤ N) :
    (backwardPass Real.sqrt tspeed a lens den rev N).getD 0 0 = 0 ∧
    (backwardPass Real.sqrt tspeed a lens den rev N).getD (N - 1) 0 = 0 ∧
    ∀ i, 1 ≤ i → i ≤ N - 2 →
      (backwardPass Real.sqrt tspeed a lens den rev N).getD i 0
        = specSpeedLimit Real.sqrt tspeed a lens den rev i
            ((backwardPass Real.sqrt tspeed a lens den rev N).getD (i + 1) 0) := by
  have hinitlen : (speedLimitsInit tspeed N).length = N := by
    simp [speedLimitsInit]
  obtain ⟨hlen, huntouched, hinterior⟩ :=
    backFold Real.sqrt a lens den rev (N - 2) (speedLimitsInit tspeed N)
      (by omega)
  obtain ⟨hi0, hiN⟩ := init_getD_zero tspeed N (by omega)
  refine ⟨?_, ?_, ?_⟩
  · rw [backwardPass, huntouched 0 (Or.inl rfl), hi0]
  · rw [backwardPass, huntouched (N - 1) (Or.inr (by omega)), hiN]
  · intro i h1 h2
    rw [backwardPass, hinterior i h1 h2, init_getD_mid tspeed N i h1 h2]
    exact code_eq_spec _ _ _ _ _ _ _ _ (fun x => Real.sqrt_nonneg x)

/-- One forward-pass loop iteration at index `i` on state
`(speed_limits, time)`: re-clamp `speed_limits[i]` against the previous
limit, then advance elapsed time — `(segment_lengths[i-1] / target_accel)
** 0.5` when the trapezoidal average speed is zero, else
`segment_lengths[i-1] / average_speed`. -/
def fwdStep (sq : K → K) (a : K) (lens : ℕ → K) (st : List K × K) (i : ℕ) :
    List K × K :=
  let v := min (st.1.getD i 0)
    (sq ((st.1.getD (i - 1) 0) ^ 2 + 2 * a * lens (i - 1)))
  let sl := st.1.set i v
  let avg := (sl.getD (i - 1) 0 + sl.getD i 0) / 2
  (sl, if avg = 0 then st.2 + sq (lens (i - 1) / a) else st.2 + lens (i - 1) / avg)

/-- `time = 0.0; for i in range(1, len(speed_limits)): ...`, run up to and
including index `k` (the full pass is `k = len(speed_limits) - 1`).  The
point emission of the loop body is omitted: it reads but never writes
`speed_limits` and `time`. -/
def forwardPass (sq : K → K) (a : K) (lens : ℕ → K) (sl0 : List K) (k : ℕ) :
    List K × K :=
  (List.range' 1 k).foldl (fwdStep sq a lens) (sl0, 0)

lemma forwardPass_succ (sq : K → K) (a : K) (lens : ℕ → K) (sl0 : List K) (k : ℕ) :
    forwardPass sq a lens sl0 (k + 1)
      = fwdStep sq a lens (forwardPass sq a lens sl0 k) (k + 1) := by
  rw [forwardPass, forwardPass, List.range'_concat, List.foldl_append, List.foldl_cons,
    List.foldl_nil, one_mul, Nat.add_comm 1 k]

lemma forwardPass_nonneg (sq : K → K) (a : K) (lens : ℕ → K) (sl0 : List K)
    (hsq : ∀ x, 0 ≤ sq x) (h0 : ∀ j, 0 ≤ sl0.getD j 0) :
    ∀ k j, 0 ≤ (forwardPass sq a lens sl0 k).1.getD j 0 := by
  intro k
  induction k with
  | zero => exact h0
  | succ k ih =>
    intro j
    rw [forwardPass_succ]
    show 0 ≤ (List.set _ _ _).getD j 0
    by_cases hj : j = k + 1
    · subst hj
      rw [List.getD_eq_getElem?_getD]
      by_cases hlt : k + 1 < (forwardPass sq a lens sl0 k).1.length
      · rw [List.getElem?_set_self hlt, Option.getD_some]
        exact le_min (ih (k + 1)) (hsq _)
      · rw [List.getElem?_eq_none (by rw [List.length_set]; omega), Option.getD_none]
    · rw [List.getD_eq_getElem?_getD, List.getElem?_set_ne (by omega),
        ← List.getD_eq_getElem?_getD]
      exact ih j

lemma forwardPass_prev_limit (sq : K → K) (a : K) (lens : ℕ → K) (sl0 : List K)
    (k : ℕ) (j : ℕ) (hj : j ≤ k) :
    (forwardPass sq a lens sl0 (k + 1)).1.getD j 0
      = (forwardPass sq a lens sl0 k).1.getD j 0 := by
  rw [forwardPass_succ]
  show (List.set _ _ _).getD j 0 = _
  rw [List.getD_eq_getElem?_getD, List.getElem?_set_ne (by omega),
    ← List.getD_eq_getElem?_getD]

lemma fwdStep_snd (sq : K → K) (a : K) (lens : ℕ → K) (st : List K × K) (i : ℕ) :
    (fwdStep sq a lens st i).2
      = if ((fwdStep sq a lens st i).1.getD (i - 1) 0
            + (fwdStep sq a lens st i).1.getD i 0) / 2 = 0
        then st.2 + sq (lens (i - 1) / a)
        else st.2 + lens (i - 1) /
          (((fwdStep sq a lens st i).1.getD (i - 1) 0
            + (fwdStep sq a lens st i).1.getD i 0) / 2) := by
  simp only [fwdStep]

/-- C4 (amended): in the forward pass of `generate_times_and_velocities`,
the elapsed time added for sub-span `i` is the sub-span arc length divided
by the trapezoidal average of the two (re-clamped) endpoint speed limits,
except when both endpoint limits are zero, in which case the time added is
`sqrt(delta_l / target_accel)` — NOT the claimed
`sqrt(2 * delta_l / target_accel)`. -/
theorem forward_pass_time_increment (a : ℝ) (lens : ℕ → ℝ) (sl0 : List ℝ)
    (h0 : ∀ j, 0 ≤ sl0.getD j 0) (i : ℕ) (h1 : 1 ≤ i) :
    (forwardPass Real.sqrt a lens sl0 i).2
      = (forwardPass Real.sqrt a lens sl0 (i - 1)).2 +
        (if (forwardPass Real.sqrt a lens sl0 i).1.getD (i - 1) 0 = 0 ∧
            (forwardPass Real.sqrt a lens sl0 i).1.getD i 0 = 0
          then Real.sqrt (lens (i - 1) / a)
          else lens (i - 1) /
            (((forwardPass Real.sqrt a lens sl0 i).1.getD (i - 1) 0 +
              (forwardPass Real.sqrt a lens sl0 i).1.getD i 0) / 2)) := by
  obtain ⟨i, rfl⟩ : ∃ m, i = m + 1 := ⟨i - 1, by omega⟩
  have hstep := forwardPass_succ Real.sqrt a lens sl0 i
  have hnn := forwardPass_nonneg Real.sqrt a lens sl0
    (fun x => Real.sqrt_nonneg x) h0
  simp only [Nat.add_sub_cancel]
  rw [hstep, fwdStep_snd, ← hstep]
  simp only [Nat.add_sub_cancel]
  set x := (forwardPass Real.sqrt a lens sl0 (i + 1)).1.getD i 0 with hxdef
  set y := (forwardPass Real.sqrt a lens sl0 (i + 1)).1.getD (i + 1) 0 with hydef
  have hxnn : 0 ≤ x := hnn (i + 1) i
  have hynn : 0 ≤ y := hnn (i + 1) (i + 1)
  have hiff : (x + y) / 2 = 0 ↔ (x = 0 ∧ y = 0) := by
    constructor
    · intro h
      constructor <;> nlinarith
    · rintro ⟨hx0, hy0⟩
      rw [hx0, hy0]
      norm_num
  by_cases hc : x = 0 ∧ y = 0
  · rw [if_pos (hiff.mpr hc), if_pos hc]
  · rw [if_neg (fun h => hc (hiff.mp h)), if_neg hc]

theorem backward_pass_speed_limits_witness :
    (backwardPass Real.sqrt 1 1 (fun _ => 0) (fun _ => 0) (fun _ => false) 3).getD 0 0 = 0 ∧
    (backwardPass Real.sqrt 1 1 (fun _ => 0) (fun _ => 0) (fun _ => false) 3).getD
      (3 - 1) 0 = 0 ∧
    ∀ i, 1 ≤ i → i ≤ 3 - 2 →
      (backwardPass Real.sqrt 1 1 (fun _ => 0) (fun _ => 0) (fun _ => false) 3).getD i 0
        = specSpeedLimit Real.sqrt 1 1 (fun _ => 0) (fun _ => 0) (fun _ => false) i
            ((backwardPass Real.sqrt 1 1 (fun _ => 0) (fun _ => 0)
              (fun _ => false) 3).getD (i + 1) 0) :=
  backward_pass_speed_limits 1 1 (fun _ => 0) (fun _ => 0) (fun _ => false) 3 (by norm_num)

/-- C4 (counterexample to the claim as stated): with both endpoint limits
zero, arc length 1 and target acceleration 1, the code adds time
`sqrt(1/1) = 1`, whereas the claimed formula `sqrt(2*delta_l/a)` gives
`sqrt 2 != 1`. -/
theorem forward_pass_time_counterexample :
    (forwardPass Real.sqrt 1 (fun _ => 1) ([0, 0] : List ℝ) 1).2 = 1 ∧
    Real.sqrt (2 * 1 / 1) ≠ 1 := by
  constructor
  · have hm : min (0 : ℝ) (Real.sqrt (0 ^ 2 + 2 * 1 * 1)) = 0 :=
      min_eq_left (Real.sqrt_nonneg _)
    norm_num [forwardPass, fwdStep, List.range', hm, Real.sqrt_one]
  · have h2 : (1 : ℝ) < Real.sqrt 2 := by
      rw [show (1 : ℝ) = Real.sqrt 1 from Real.sqrt_one.symm]
      exact Real.sqrt_lt_sqrt (by norm_num) (by norm_num)
    rw [show (2 : ℝ) * 1 / 1 = 2 from by norm_num]
    exact ne_of_gt h2

theorem forward_pass_time_increment_witness :
    (forwardPass Real.sqrt 1 (fun _ => 1) ([0, 0] : List ℝ) 1).2
      = (forwardPass Real.sqrt 1 (fun _ => 1) ([0, 0] : List ℝ) (1 - 1)).2 +
        (if (forwardPass Real.sqrt 1 (fun _ => 1) ([0, 0] : List ℝ) 1).1.getD (1 - 1) 0 = 0 ∧
            (forwardPass Real.sqrt 1 (fun _ => 1) ([0, 0] : List ℝ) 1).1.getD 1 0 = 0
          then Real.sqrt ((fun _ => (1 : ℝ)) (1 - 1) / 1)
          else (fun _ => (1 : ℝ)) (1 - 1) /
            (((forwardPass Real.sqrt 1 (fun _ => 1) ([0, 0] : List ℝ) 1).1.getD (1 - 1) 0 +
              (forwardPass Real.sqrt 1 (fun _ => 1) ([0, 0] : List ℝ) 1).1.getD 1 0) / 2)) :=
  forward_pass_time_increment 1 (fun _ => 1) [0, 0]
    (by
      intro j
      rcases j with _ | _ | j <;> norm_num [List.getD])
    1 (by norm_num)


/-- The endpoint-defaulting step of `Sequence.generate_velocities`:
`for endpoint_index in (0, sequence_length - 1): if
velocity_sequences[dim][endpoint_index] is None: ... = 0`. -/
def defaultEndpoints (n : ℕ) (vel0 : List (Option K)) : List (Option K) :=
  let v1 := if vel0.getD 0 none = none then vel0.set 0 (some 0) else vel0
  if v1.getD (n - 1) none = none then v1.set (n - 1) (some 0) else v1

/-- One iteration of the partial-fill loop of `Sequence.generate_velocities`
at `point_index = pi`, on the state (velocity list, `gen_start_index`). -/
def fillStep (ps ts : List K) (st : List (Option K) × Option ℕ) (pi : ℕ) :
    Except Err (List (Option K) × Option ℕ) :=
  let gs : Option ℕ := match st.2 with
    | none => if st.1.getD pi none = none then some (pi - 1) else none
    | some g => some g
  match gs with
  | none => .ok (st.1, none)
  | some g =>
    if st.1.getD (pi + 1) none = none then .ok (st.1, some g)
    else
      match generate_velocities_continuous_acceleration
          ((ps.drop g).take (pi + 2 - g)) ((ts.drop g).take (pi + 2 - g))
          ((st.1.getD g none).getD 0) ((st.1.getD (pi + 1) none).getD 0) with
      | .error e => .error e
      | .ok res => .ok (st.1.take g ++ res.map some ++ st.1.drop (pi + 2), none)

/-- `for point_index in range(1, sequence_length - 1): ...` driven by the
explicit index list. -/
def fillLoop (ps ts : List K) :
    List ℕ → List (Option K) × Option ℕ → Except Err (List (Option K) × Option ℕ)
  | [], st => .ok st
  | pi :: rest, st =>
    match fillStep ps ts st pi with
    | .error e => .error e
    | .ok st' => fillLoop ps ts rest st'

/-- One axis of `Sequence.generate_velocities` in the partially specified
case: default the endpoint velocities to zero, then fill every interior run
of unspecified velocities with the continuous-acceleration solver. -/
def generate_velocities_axis (ps ts : List K) (vel0 : List (Option K)) :
    Except Err (List (Option K)) :=
  match fillLoop ps ts (List.range' 1 (ts.length - 2))
      (defaultEndpoints ts.length vel0, none) with
  | .error e => .error e
  | .ok st => .ok st.1

lemma genVels_ok_facts (ps ts : List K) (vs ve : K) (out : List K)
    (h : generate_velocities_continuous_acceleration ps ts vs ve = .ok out) :
    2 ≤ ts.length ∧ out.length = ts.length ∧ out.getD 0 0 = vs ∧
      out.getD (ts.length - 1) 0 = ve := by
  unfold generate_velocities_continuous_acceleration at h
  by_cases hlen : ts.length < 2
  · rw [if_pos hlen] at h
    exact absurd h (by simp)
  rw [if_neg hlen] at h
  cases hrows : velocityRows ve ((deltas ts).zip (deltas ps)) with
  | error e =>
    simp only [hrows] at h
    exact absurd h (by simp)
  | ok rows =>
  simp only [hrows] at h
  cases hsol : solveBanded 0 0 ((0, 1, 0, vs) :: rows) with
  | error e =>
    simp only [hsol] at h
    exact absurd h (by simp)
  | ok xs =>
  simp only [hsol] at h
  simp only [Except.ok.injEq] at h
  refine ⟨by omega, ?_, ?_, ?_⟩
  · rw [← h]
    simp only [List.length_cons, List.length_append, List.length_map,
      List.length_range, List.length_nil]
    omega
  · rw [← h]
    rfl
  · rw [← h]
    have h1 : ts.length - 1 = (ts.length - 2) + 1 := by omega
    rw [h1, List.getD_cons_succ, List.getD_eq_getElem?_getD,
      List.getElem?_append_right (by simp), ← List.getD_eq_getElem?_getD]
    simp

lemma surgery_getD (l1 : List (Option K)) (res : List K) (g m : ℕ)
    (hres : res.length = m) (hlen : g + m ≤ l1.length) :
    ∀ j, (l1.take g ++ (res.map some ++ l1.drop (g + m))).getD j none
      = if j < g then l1.getD j none
        else if j < g + m then some (res.getD (j - g) 0)
        else l1.getD j none := by
  intro j
  have htake : (l1.take g).length = g := by
    rw [List.length_take]
    omega
  by_cases h1 : j < g
  · rw [if_pos h1, List.getD_eq_getElem?_getD, List.getElem?_append_left (by omega),
      List.getElem?_take_of_lt h1, ← List.getD_eq_getElem?_getD]
  rw [if_neg h1]
  by_cases h2 : j < g + m
  · rw [if_pos h2, List.getD_eq_getElem?_getD, List.getElem?_append_right (by omega),
      List.getElem?_append_left (by rw [List.length_map, hres, htake]; omega), htake,
      List.getElem?_map, List.getElem?_eq_getElem (l := res) (by omega)]
    rw [List.getD_eq_getElem res 0 (by omega)]
    simp
  · rw [if_neg h2, List.getD_eq_getElem?_getD, List.getElem?_append_right (by omega),
      List.getElem?_append_right (by rw [List.length_map, hres, htake]; omega), htake,
      List.length_map, hres, List.getElem?_drop,
      show g + m + (j - g - m) = j from by omega, ← List.getD_eq_getElem?_getD]

lemma getD_set_char (l : List (Option K)) (i j : ℕ) (v : Option K) (hi : i < l.length) :
    (l.set i v).getD j none = if j = i then v else l.getD j none := by
  by_cases hji : j = i
  · subst hji
    rw [if_pos rfl, List.getD_eq_getElem?_getD, List.getElem?_set_self hi, Option.getD_some]
  · rw [if_neg hji, List.getD_eq_getElem?_getD, List.getElem?_set_ne (Ne.symm hji),
      ← List.getD_eq_getElem?_getD]

lemma defaultEndpoints_length (n : ℕ) (vel0 : List (Option K)) :
    (defaultEndpoints n vel0).length = vel0.length := by
  simp only [defaultEndpoints]
  split <;> split <;> simp

lemma defaultEndpoints_getD (n : ℕ) (vel0 : List (Option K)) (hn : 1 ≤ n)
    (hlen : vel0.length = n) (j : ℕ) :
    (defaultEndpoints n vel0).getD j none =
      if (j = 0 ∨ j = n - 1) ∧ vel0.getD j none = none then some 0
      else vel0.getD j none := by
  simp only [defaultEndpoints]
  by_cases h1 : vel0.getD 0 none = none
  · rw [if_pos h1]
    have hl1 : (vel0.set 0 (some 0)).length = n := by simp [hlen]
    by_cases h2 : (vel0.set 0 (some 0)).getD (n - 1) none = none
    · rw [if_pos h2]
      have hne : n - 1 ≠ 0 := by
        intro he
        rw [getD_set_char vel0 0 (n - 1) (some 0) (by omega), if_pos he] at h2
        exact Option.noConfusion h2
      have h2' : vel0.getD (n - 1) none = none := by
        rw [getD_set_char vel0 0 (n - 1) (some 0) (by omega), if_neg hne] at h2
        exact h2
      rw [getD_set_char _ (n - 1) j (some 0) (by omega),
        getD_set_char vel0 0 j (some 0) (by omega)]
      by_cases hj1 : j = n - 1
      · rw [if_pos hj1, if_pos ⟨Or.inr hj1, by rw [hj1]; exact h2'⟩]
      · rw [if_neg hj1]
        by_cases hj0 : j = 0
        · rw [if_pos hj0, if_pos ⟨Or.inl hj0, by rw [hj0]; exact h1⟩]
        · rw [if_neg hj0, if_neg (by rintro ⟨hj, _⟩; rcases hj with h | h <;> omega)]
    · rw [if_neg h2]
      rw [getD_set_char vel0 0 j (some 0) (by omega)]
      by_cases hj0 : j = 0
      · rw [if_pos hj0, if_pos ⟨Or.inl hj0, by rw [hj0]; exact h1⟩]
      · rw [if_neg hj0]
        by_cases hj1 : j = n - 1
        · have h2' : vel0.getD (n - 1) none ≠ none := by
            rw [getD_set_char vel0 0 (n - 1) (some 0) (by omega),
              if_neg (by omega)] at h2
            exact h2
          rw [if_neg (by rintro ⟨_, hc⟩; rw [hj1] at hc; exact h2' hc)]
        · rw [if_neg (by rintro ⟨hj, _⟩; rcases hj with h | h <;> omega)]
  · rw [if_neg h1]
    by_cases h2 : vel0.getD (n - 1) none = none
    · rw [if_pos h2]
      have hne : n - 1 ≠ 0 := by
        intro he
        rw [he] at h2
        exact h1 h2
      rw [getD_set_char vel0 (n - 1) j (some 0) (by omega)]
      by_cases hj1 : j = n - 1
      · rw [if_pos hj1, if_pos ⟨Or.inr hj1, by rw [hj1]; exact h2⟩]
      · rw [if_neg hj1, if_neg (by
          rintro ⟨hj, hc⟩
          rcases hj with h | h
          · rw [h] at hc; exact h1 hc
          · exact hj1 h)]
    · rw [if_neg h2, if_neg (by
        rintro ⟨hj, hc⟩
        rcases hj with h | h
        · rw [h] at hc; exact h1 hc
        · rw [h] at hc; exact h2 hc)]


/-- Invariant of the partial-fill loop after iterations
`point_index = 1 .. k`, relating the state to the endpoint-defaulted
initial velocities `vel1`: lengths agree; positions beyond `k` still hold
their initial values; specified positions are never changed; every
completed interior run of unspecified velocities holds the solver output
for its enclosing slice; a pending run forces `gen_start_index`; and the
`gen_start_index` state is consistent. -/
def FillInv (ps ts : List K) (vel1 : List (Option K)) (k : ℕ)
    (st : List (Option K) × Option ℕ) : Prop :=
  st.1.length = vel1.length ∧
  (∀ j, k < j → st.1.getD j none = vel1.getD j none) ∧
  (∀ j, vel1.getD j none ≠ none → st.1.getD j none = vel1.getD j none) ∧
  (∀ l r, 1 ≤ l → l ≤ r → r ≤ k →
    (∀ j, l ≤ j → j ≤ r → vel1.getD j none = none) →
    vel1.getD (l - 1) none ≠ none → vel1.getD (r + 1) none ≠ none →
    ∃ res, generate_velocities_continuous_acceleration
        ((ps.drop (l - 1)).take (r + 3 - l)) ((ts.drop (l - 1)).take (r + 3 - l))
        ((vel1.getD (l - 1) none).getD 0) ((vel1.getD (r + 1) none).getD 0)
        = .ok res ∧
      (∀ j, l - 1 ≤ j → j ≤ r + 1 →
        st.1.getD j none = some (res.getD (j - (l - 1)) 0))) ∧
  (∀ l, 1 ≤ l → l ≤ k →
    (∀ j, l ≤ j → j ≤ k + 1 → vel1.getD j none = none) →
    vel1.getD (l - 1) none ≠ none → st.2 = some (l - 1)) ∧
  (match st.2 with
   | none => (∀ j, j ≤ k → st.1.getD j none ≠ none) ∧
       (vel1.getD (k + 1) none = none → vel1.getD k none ≠ none)
   | some g => g + 1 ≤ k ∧ vel1.getD g none ≠ none ∧
       (∀ j, g + 1 ≤ j → j ≤ k + 1 → vel1.getD j none = none) ∧
       (∀ j, j ≤ g → st.1.getD j none ≠ none))

lemma fill_inv (ps ts : List K) (vel1 : List (Option K)) (k g : ℕ)
    (st : List (Option K) × Option ℕ) (res : List K)
    (hlt : vel1.length = ts.length)
    (hk : k + 1 ≤ ts.length - 2)
    (hInv : FillInv ps ts vel1 k st)
    (hg : g + 1 ≤ k + 1)
    (hvg : vel1.getD g none ≠ none)
    (hrun : ∀ j, g + 1 ≤ j → j ≤ k + 1 → vel1.getD j none = none)
    (hfin : ∀ j, j ≤ g → st.1.getD j none ≠ none)
    (hk2 : vel1.getD (k + 2) none ≠ none)
    (hres : generate_velocities_continuous_acceleration
        ((ps.drop g).take (k + 3 - g)) ((ts.drop g).take (k + 3 - g))
        ((st.1.getD g none).getD 0) ((st.1.getD (k + 2) none).getD 0) = .ok res) :
    FillInv ps ts vel1 (k + 1)
      (st.1.take g ++ (res.map some ++ st.1.drop (k + 3)), none) := by
  obtain ⟨hL, hU, hS, hF2, hGc, hG⟩ := hInv
  have hstk2 : st.1.getD (k + 2) none = vel1.getD (k + 2) none := hU (k + 2) (by omega)
  have hstg : st.1.getD g none = vel1.getD g none := hS g hvg
  obtain ⟨hts2, hreslen, hreshead, hreslast⟩ := genVels_ok_facts _ _ _ _ _ hres
  have hslicelen : ((ts.drop g).take (k + 3 - g)).length = k + 3 - g := by
    simp only [List.length_take, List.length_drop]
    omega
  rw [hslicelen] at hreslen hreslast
  have hreslen' : res.length = k + 3 - g := hreslen
  have hsur := surgery_getD st.1 res g (k + 3 - g) hreslen' (by omega)
  rw [show g + (k + 3 - g) = k + 3 from by omega] at hsur
  -- value preservation at the two boundary positions
  obtain ⟨x, hx⟩ := Option.ne_none_iff_exists'.mp (hfin g (le_refl g))
  obtain ⟨y, hy⟩ := Option.ne_none_iff_exists'.mp
    (show st.1.getD (k + 2) none ≠ none from by rw [hstk2]; exact hk2)
  have hnew_run : ∀ j, g ≤ j → j ≤ k + 2 →
      (st.1.take g ++ (res.map some ++ st.1.drop (k + 3))).getD j none
        = some (res.getD (j - g) 0) := by
    intro j h1 h2
    rw [hsur j, if_neg (by omega), if_pos (by omega)]
  have hnew_g : (st.1.take g ++ (res.map some ++ st.1.drop (k + 3))).getD g none
      = st.1.getD g none := by
    rw [hnew_run g (le_refl g) (by omega), Nat.sub_self, hreshead, hx, Option.getD_some]
  have hnew_k2 : (st.1.take g ++ (res.map some ++ st.1.drop (k + 3))).getD (k + 2) none
      = st.1.getD (k + 2) none := by
    rw [hnew_run (k + 2) (by omega) (le_refl _),
      show k + 2 - g = k + 3 - g - 1 from by omega, hreslast, hy, Option.getD_some]
  have hpres : ∀ j, j ≤ g ∨ k + 2 ≤ j →
      (st.1.take g ++ (res.map some ++ st.1.drop (k + 3))).getD j none
        = st.1.getD j none := by
    intro j hj
    rcases hj with hj | hj
    · by_cases hjg : j = g
      · rw [hjg, hnew_g]
      · rw [hsur j, if_pos (by omega)]
    · by_cases hjk : j = k + 2
      · rw [hjk, hnew_k2]
      · rw [hsur j, if_neg (by omega), if_neg (by omega)]
  refine ⟨?_, ?_, ?_, ?_, ?_, ?_, ?_⟩
  · simp only [List.length_append, List.length_take, List.length_map, List.length_drop,
      hreslen', hL]
    omega
  · intro j hj
    rw [hpres j (by omega)]
    exact hU j (by omega)
  · intro j hj
    by_cases hjg : j ≤ g
    · rw [hpres j (Or.inl hjg)]
      exact hS j hj
    · by_cases hjk : k + 2 ≤ j
      · rw [hpres j (Or.inr hjk)]
        exact hS j hj
      · exact absurd (hrun j (by omega) (by omega)) hj
  · intro l r hl hlr hrk hrunn hb1 hb2
    by_cases hr : r ≤ k
    · have hr1g : r + 1 ≤ g := by
        by_contra hc
        exact hb2 (hrun (r + 1) (by omega) (by omega))
      obtain ⟨res', hres', hval⟩ := hF2 l r hl hlr hr hrunn hb1 hb2
      exact ⟨res', hres', fun j h1 h2 => by
        rw [hpres j (Or.inl (by omega))]
        exact hval j h1 h2⟩
    · have hrk1 : r = k + 1 := by omega
      subst hrk1
      have hlg : l = g + 1 := by
        have hl1g : l - 1 ≤ g := by
          by_contra hc
          exact hb1 (hrun (l - 1) (by omega) (by omega))
        by_contra hc
        exact hvg (hrunn g (by omega) (by omega))
      subst hlg
      rw [hstg, hstk2] at hres
      refine ⟨res, ?_, ?_⟩
      · rw [show g + 1 - 1 = g from by omega,
          show k + 1 + 3 - (g + 1) = k + 3 - g from by omega]
        exact hres
      · intro j h1 h2
        rw [show g + 1 - 1 = g from by omega] at h1 ⊢
        exact hnew_run j h1 h2
  · intro l hl hlk hrunn hb
    exact absurd (hrunn (k + 2) (by omega) (by omega)) hk2
  · intro j hj
    by_cases hjg : j < g
    · rw [hpres j (Or.inl (by omega))]
      exact hfin j (by omega)
    · rw [hnew_run j (by omega) (by omega)]
      exact fun h => Option.noConfusion h
  · intro h
    exact absurd h hk2

lemma fillStep_inv (ps ts : List K) (vel1 : List (Option K)) (k : ℕ)
    (st st' : List (Option K) × Option ℕ)
    (hlt : vel1.length = ts.length)
    (hk : k + 1 ≤ ts.length - 2)
    (hInv : FillInv ps ts vel1 k st)
    (hstep : fillStep ps ts st (k + 1) = .ok st') :
    FillInv ps ts vel1 (k + 1) st' := by
  obtain ⟨vel, gso⟩ := st
  obtain ⟨hL, hU, hS, hF2, hGc, hG⟩ := hInv
  cases gso with
  | none =>
    obtain ⟨hfin, hextra⟩ := hG
    by_cases h1 : vel.getD (k + 1) none = none
    · have hv1 : vel1.getD (k + 1) none = none := by
        rw [← hU (k + 1) (by omega)]
        exact h1
      have hvk : vel1.getD k none ≠ none := hextra hv1
      rw [fillStep] at hstep
      simp only [if_pos h1, Nat.add_sub_cancel] at hstep
      by_cases h2 : vel.getD (k + 2) none = none
      · rw [if_pos h2] at hstep
        have hv2 : vel1.getD (k + 2) none = none := by
          rw [← hU (k + 2) (by omega)]
          exact h2
        injection hstep with hstep
        subst hstep
        refine ⟨hL, fun j hj => hU j (by omega), hS, ?_, ?_, ?_, hvk, ?_, hfin⟩
        · intro l r hl hlr hrk hrunn hb1 hb2
          by_cases hr : r ≤ k
          · exact hF2 l r hl hlr hr hrunn hb1 hb2
          · exact absurd hb2 (by
              rw [show r + 1 = k + 2 from by omega]
              intro hc
              exact hc hv2)
        · intro l hl hlk hrunn hb
          by_cases hlk' : l ≤ k
          · exact absurd (hGc l hl hlk' (fun j hj1 hj2 => hrunn j hj1 (by omega)) hb)
              (by simp)
          · have : l = k + 1 := by omega
            subst this
            simp
        · omega
        · intro j hj1 hj2
          rcases (show j = k + 1 ∨ j = k + 2 from by omega) with h | h
          · rw [h]
            exact hv1
          · rw [h]
            exact hv2
      · rw [if_neg h2] at hstep
        cases hres : generate_velocities_continuous_acceleration
            ((ps.drop k).take (k + 1 + 2 - k)) ((ts.drop k).take (k + 1 + 2 - k))
            ((vel.getD k none).getD 0) ((vel.getD (k + 1 + 1) none).getD 0) with
        | error e =>
          rw [hres] at hstep
          exact absurd hstep (by simp)
        | ok res =>
        rw [hres] at hstep
        injection hstep with hstep
        subst hstep
        have hres' : generate_velocities_continuous_acceleration
            ((ps.drop k).take (k + 3 - k)) ((ts.drop k).take (k + 3 - k))
            ((vel.getD k none).getD 0) ((vel.getD (k + 2) none).getD 0) = .ok res := by
          rw [show k + 3 - k = k + 1 + 2 - k from by omega]
          exact hres
        have := fill_inv ps ts vel1 k k (vel, none) res hlt hk
          ⟨hL, hU, hS, hF2, hGc, hfin, hextra⟩ (by omega) hvk
          (fun j hj1 hj2 => by
            have : j = k + 1 := by omega
            subst this
            exact hv1)
          hfin
          (by rw [← hU (k + 2) (by omega)]; exact h2)
          hres'
        rw [show k + 1 + 2 = k + 3 from by omega]
        simpa using this
    · rw [fillStep] at hstep
      simp only [if_neg h1] at hstep
      injection hstep with hstep
      subst hstep
      have hv1 : vel1.getD (k + 1) none ≠ none := by
        rw [← hU (k + 1) (by omega)]
        exact h1
      refine ⟨hL, fun j hj => hU j (by omega), hS, ?_, ?_, ?_, fun _ => hv1⟩
      · intro l r hl hlr hrk hrunn hb1 hb2
        by_cases hr : r ≤ k
        · exact hF2 l r hl hlr hr hrunn hb1 hb2
        · exact absurd (hrunn r (by omega) (le_refl r)) (by
            rw [show r = k + 1 from by omega]
            exact hv1)
      · intro l hl hlk hrunn hb
        exact absurd (hrunn (k + 1) (by omega) (by omega)) hv1
      · intro j hj
        by_cases hjk : j ≤ k
        · exact hfin j hjk
        · rw [show j = k + 1 from by omega]
          exact h1
  | some g =>
    obtain ⟨hg1, hvg, hrun, hfin⟩ := hG
    rw [fillStep] at hstep
    simp only [] at hstep
    by_cases h2 : vel.getD (k + 2) none = none
    · rw [if_pos h2] at hstep
      have hv2 : vel1.getD (k + 2) none = none := by
        rw [← hU (k + 2) (by omega)]
        exact h2
      injection hstep with hstep
      subst hstep
      refine ⟨hL, fun j hj => hU j (by omega), hS, ?_, ?_, by omega, hvg, ?_, hfin⟩
      · intro l r hl hlr hrk hrunn hb1 hb2
        by_cases hr : r ≤ k
        · exact hF2 l r hl hlr hr hrunn hb1 hb2
        · exact absurd hb2 (by
            rw [show r + 1 = k + 2 from by omega]
            intro hc
            exact hc hv2)
      · intro l hl hlk hrunn hb
        have hl1g : l - 1 ≤ g := by
          by_contra hc
          exact hb (hrun (l - 1) (by omega) (by omega))
        have hlg : l = g + 1 := by
          by_contra hc
          exact hvg (hrunn g (by omega) (by omega))
        rw [hlg]
        simp
      · intro j hj1 hj2
        by_cases hjk : j ≤ k + 1
        · exact hrun j hj1 hjk
        · rw [show j = k + 2 from by omega]
          exact hv2
    · rw [if_neg h2] at hstep
      cases hres : generate_velocities_continuous_acceleration
          ((ps.drop g).take (k + 1 + 2 - g)) ((ts.drop g).take (k + 1 + 2 - g))
          ((vel.getD g none).getD 0) ((vel.getD (k + 1 + 1) none).getD 0) with
      | error e =>
        rw [hres] at hstep
        exact absurd hstep (by simp)
      | ok res =>
      rw [hres] at hstep
      injection hstep with hstep
      subst hstep
      have hres' : generate_velocities_continuous_acceleration
          ((ps.drop g).take (k + 3 - g)) ((ts.drop g).take (k + 3 - g))
          ((vel.getD g none).getD 0) ((vel.getD (k + 2) none).getD 0) = .ok res := by
        rw [show k + 3 - g = k + 1 + 2 - g from by omega]
        exact hres
      have := fill_inv ps ts vel1 k g (vel, some g) res hlt hk
        ⟨hL, hU, hS, hF2, hGc, hg1, hvg, hrun, hfin⟩ (by omega) hvg hrun hfin
        (by rw [← hU (k + 2) (by omega)]; exact h2)
        hres'
      rw [show k + 1 + 2 = k + 3 from by omega]
      simpa using this

lemma fillLoop_inv (ps ts : List K) (vel1 : List (Option K)) :
    ∀ (m k : ℕ) (st st' : List (Option K) × Option ℕ),
    vel1.length = ts.length →
    FillInv ps ts vel1 k st →
    k + m ≤ ts.length - 2 →
    fillLoop ps ts (List.range' (k + 1) m) st = .ok st' →
    FillInv ps ts vel1 (k + m) st' := by
  intro m
  induction m with
  | zero =>
    intro k st st' _ hInv _ hloop
    rw [List.range'] at hloop
    rw [fillLoop] at hloop
    injection hloop with hloop
    rw [← hloop]
    exact hInv
  | succ m ih =>
    intro k st st' hlt hInv hm hloop
    rw [List.range'] at hloop
    rw [fillLoop] at hloop
    cases hstep : fillStep ps ts st (k + 1) with
    | error e =>
      rw [hstep] at hloop
      exact absurd hloop (by simp)
    | ok st'' =>
      rw [hstep] at hloop
      have hInv' := fillStep_inv ps ts vel1 k st st'' hlt (by omega) hInv hstep
      have := ih (k + 1) st'' st' hlt hInv' (by omega) hloop
      rw [show k + (m + 1) = k + 1 + m from by omega]
      exact this

lemma fillInv_init (ps ts : List K) (vel1 : List (Option K))
    (h0 : vel1.getD 0 none ≠ none) :
    FillInv ps ts vel1 0 (vel1, none) := by
  refine ⟨rfl, fun j _ => rfl, fun j _ => rfl, ?_, ?_, ?_, fun _ => h0⟩
  · intro l r hl hlr hrk
    omega
  · intro l hl hlk
    omega
  · intro j hj
    rw [Nat.le_zero.mp hj]
    exact h0

/-- C10: in the per-axis partial-fill branch of
`Sequence.generate_velocities`, an unspecified (`None`) velocity at the
first or last point is set to exactly 0; every originally specified
velocity is left unchanged; and each maximal interior run of unspecified
velocities is filled with the continuous-acceleration solver's output on
the enclosing slice, using the adjacent (possibly zero-defaulted)
specified velocities as the boundary conditions. -/
theorem generate_velocities_partial_fill (ps ts : List K) (vel0 out : List (Option K))
    (hn : 2 ≤ ts.length) (hlen : vel0.length = ts.length)
    (hgen : generate_velocities_axis ps ts vel0 = .ok out) :
    (vel0.getD 0 none = none → out.getD 0 none = some 0) ∧
    (vel0.getD (ts.length - 1) none = none →
      out.getD (ts.length - 1) none = some 0) ∧
    (∀ j v, vel0.getD j none = some v → out.getD j none = some v) ∧
    (∀ l r, 1 ≤ l → l ≤ r → r ≤ ts.length - 2 →
      (∀ j, l ≤ j → j ≤ r →
        (defaultEndpoints ts.length vel0).getD j none = none) →
      (defaultEndpoints ts.length vel0).getD (l - 1) none ≠ none →
      (defaultEndpoints ts.length vel0).getD (r + 1) none ≠ none →
      ∃ res, generate_velocities_continuous_acceleration
          ((ps.drop (l - 1)).take (r + 3 - l)) ((ts.drop (l - 1)).take (r + 3 - l))
          (((defaultEndpoints ts.length vel0).getD (l - 1) none).getD 0)
          (((defaultEndpoints ts.length vel0).getD (r + 1) none).getD 0) = .ok res ∧
        ∀ j, l - 1 ≤ j → j ≤ r + 1 →
          out.getD j none = some (res.getD (j - (l - 1)) 0)) := by
  set vel1 := defaultEndpoints ts.length vel0 with hvel1
  have hlt : vel1.length = ts.length := by
    rw [hvel1, defaultEndpoints_length, hlen]
  have hchar := defaultEndpoints_getD ts.length vel0 (by omega) hlen
  rw [← hvel1] at hchar
  have h0ne : vel1.getD 0 none ≠ none := by
    rw [hchar 0]
    by_cases hc : vel0.getD 0 none = none
    · rw [if_pos ⟨Or.inl rfl, hc⟩]
      exact fun h => Option.noConfusion h
    · rw [if_neg (by rintro ⟨_, h⟩; exact hc h)]
      exact hc
  have hlne : vel1.getD (ts.length - 1) none ≠ none := by
    rw [hchar (ts.length - 1)]
    by_cases hc : vel0.getD (ts.length - 1) none = none
    · rw [if_pos ⟨Or.inr rfl, hc⟩]
      exact fun h => Option.noConfusion h
    · rw [if_neg (by rintro ⟨_, h⟩; exact hc h)]
      exact hc
  rw [generate_velocities_axis] at hgen
  cases hloop : fillLoop ps ts (List.range' 1 (ts.length - 2)) (vel1, none) with
  | error e =>
    rw [← hvel1] at hgen
    rw [hloop] at hgen
    exact absurd hgen (by simp)
  | ok stf =>
  rw [← hvel1] at hgen
  rw [hloop] at hgen
  injection hgen with hgen
  have hInv := fillLoop_inv ps ts vel1 (ts.length - 2) 0 (vel1, none) stf hlt
    (fillInv_init ps ts vel1 h0ne) (by omega)
    (by rw [show (0 : ℕ) + 1 = 1 from rfl]; exact hloop)
  rw [show (0 : ℕ) + (ts.length - 2) = ts.length - 2 from by omega] at hInv
  obtain ⟨hL, hU, hS, hF2, hGc, hG⟩ := hInv
  have hout : ∀ j, out.getD j none = stf.1.getD j none := by
    intro j
    rw [← hgen]
  refine ⟨?_, ?_, ?_, ?_⟩
  · intro hc
    have hv : vel1.getD 0 none = some 0 := by
      rw [hchar 0, if_pos ⟨Or.inl rfl, hc⟩]
    rw [hout 0, hS 0 (by rw [hv]; exact fun h => Option.noConfusion h), hv]
  · intro hc
    have hv : vel1.getD (ts.length - 1) none = some 0 := by
      rw [hchar (ts.length - 1), if_pos ⟨Or.inr rfl, hc⟩]
    rw [hout _, hS _ (by rw [hv]; exact fun h => Option.noConfusion h), hv]
  · intro j v hc
    have hv : vel1.getD j none = some v := by
      rw [hchar j]
      rw [if_neg (by rintro ⟨_, h⟩; rw [hc] at h; exact Option.noConfusion h), hc]
    rw [hout j, hS j (by rw [hv]; exact fun h => Option.noConfusion h), hv]
  · intro l r hl hlr hrk hrunn hb1 hb2
    obtain ⟨res, hres, hval⟩ := hF2 l r hl hlr hrk hrunn hb1 hb2
    exact ⟨res, hres, fun j h1 h2 => by rw [hout j]; exact hval j h1 h2⟩

theorem generate_velocities_partial_fill_witness :
    ((([none, none, none] : List (Option ℚ)).getD 0 none = none →
        ([some 0, some 0, some 0] : List (Option ℚ)).getD 0 none = some 0) ∧
      (([none, none, none] : List (Option ℚ)).getD 2 none = none →
        ([some 0, some 0, some 0] : List (Option ℚ)).getD 2 none = some 0) ∧
      (∀ j v, ([none, none, none] : List (Option ℚ)).getD j none = some v →
        ([some 0, some 0, some 0] : List (Option ℚ)).getD j none = some v) ∧
      (∀ l r, 1 ≤ l → l ≤ r → r ≤ 1 →
        (∀ j, l ≤ j → j ≤ r →
          (defaultEndpoints 3 ([none, none, none] : List (Option ℚ))).getD j none
            = none) →
        (defaultEndpoints 3 ([none, none, none] : List (Option ℚ))).getD
          (l - 1) none ≠ none →
        (defaultEndpoints 3 ([none, none, none] : List (Option ℚ))).getD
          (r + 1) none ≠ none →
        ∃ res, generate_velocities_continuous_acceleration
            ((([0, 0, 0] : List ℚ).drop (l - 1)).take (r + 3 - l))
            ((([0, 1, 2] : List ℚ).drop (l - 1)).take (r + 3 - l))
            (((defaultEndpoints 3 ([none, none, none] : List (Option ℚ))).getD
              (l - 1) none).getD 0)
            (((defaultEndpoints 3 ([none, none, none] : List (Option ℚ))).getD
              (r + 1) none).getD 0) = .ok res ∧
          ∀ j, l - 1 ≤ j → j ≤ r + 1 →
            ([some 0, some 0, some 0] : List (Option ℚ)).getD j none
              = some (res.getD (j - (l - 1)) 0))) :=
  generate_velocities_partial_fill [0, 0, 0] [0, 1, 2] [none, none, none]
    [some 0, some 0, some 0] (by norm_num) (by norm_num)
    (by
      norm_num [generate_velocities_axis, fillLoop, fillStep, defaultEndpoints,
        List.range', generate_velocities_continuous_acceleration, velocityRows, deltas,
        solveBanded, pydiv, Except.bind, bind, List.range_succ]
      simp)


end PVT
